import Mathlib

/-!
The path utilities of minizip, `mz_os.c`.

A shallow embedding of the functions of `src/mz_os.c` and the properties
settled about them.

Conventions of the embedding.

* A C `char` is a `Char`; the terminator is `NUL`.
* A `const char *path` argument is the list of the bytes stored before its
  terminator.  The memory that follows the terminator is not part of the
  string; where the code reads it, the byte found there is the parameter
  `past`.
* The `output` buffer of `mz_path_resolve` is a memory `Int → Char` addressed
  relative to the pointer `output`: index `0` is `output[0]`, index `-1` the
  byte just before the buffer.  Its contents on entry are a parameter, since
  the function reads cells it has not written.  Every read and every write
  through `target` is recorded, so that the indices touched can be stated.
* `int32_t` cursors and counters are `Int`; pointer differences are indices.
  The running `max_output` never exceeds its initial value by more than the
  length of the path, so no wrap-around is modelled for it.  The conversions
  between `size_t` and `int32_t` in `mz_path_combine`, and to `int16_t` in
  `mz_make_dir`, are explicit.
* A `char *` buffer that a function writes to (`mz_path_combine`,
  `mz_path_remove_filename`, the copy made by `mz_make_dir`) is the list of the
  bytes of its memory region; an access outside the region gives `none`.
* The functions that `mz_os.c` calls and does not define are parameters: the
  Directory Creator `mz_os_make_dir` is a step on a state, and the stream
  functions of `mz_get_file_crc` are the fields of `StreamOps`.  Every string
  passed to the Directory Creator is recorded.
-/

namespace Minizip

/-! ## Status codes -/

/-- Modelled from the spec: the status constants come from `mz.h`, which is
not among the sources.  The spec names them as distinct outcomes (success,
`InvalidArgument`, `Internal`, `NotFound`, `OutOfMemory`); the numbers are
those of the upstream header, and only their being distinct is used. -/
def MZ_OK : Int := 0

/-- Modelled from the spec: `OutOfMemory` status of `mz.h` (see `MZ_OK`). -/
def MZ_MEM_ERROR : Int := -4

/-- Modelled from the spec: `InvalidArgument` status of `mz.h` (see `MZ_OK`). -/
def MZ_PARAM_ERROR : Int := -102

/-- Modelled from the spec: `Internal` status of `mz.h` (see `MZ_OK`). -/
def MZ_INTERNAL_ERROR : Int := -104

/-- Modelled from the spec: `NotFound` status of `mz.h` (see `MZ_OK`). -/
def MZ_EXIST_ERROR : Int := -107

/-! ## Characters and strings -/

/-- The string terminator, the C character `0`. -/
def NUL : Char := Char.ofNat 0

/-- The inline test `(c == '\\') || (c == '/')` used throughout `mz_os.c`. -/
abbrev isSep (c : Char) : Prop := c = '\\' ∨ c = '/'

/-- The byte read at `path[i]`: the bytes of the string, then its terminator,
then the foreign memory behind it (`past`). -/
def srcAt (path : List Char) (past : Char) (i : Nat) : Char :=
  (path ++ [NUL]).getD i past

/-- A list of bytes is the content of a C string when it holds no terminator. -/
def IsCStr (p : List Char) : Prop := ∀ c ∈ p, c ≠ NUL

instance (p : List Char) : Decidable (IsCStr p) := by
  unfold IsCStr; infer_instance

/-- The C string stored in `mem` from index `i` on, when a terminator is found
within `n` bytes. -/
def readStr (mem : Int → Char) : Nat → Int → Option (List Char)
  | 0, _ => none
  | n + 1, i =>
    if mem i = NUL then some [] else (readStr mem n (i + 1)).map (fun r => mem i :: r)

/-! ## `mz_path_resolve` (lines 96-193) -/

/-- The local variables of `mz_path_resolve` together with the memory around
`output`; `reads` and `writes` record the indices accessed through `target`,
latest first. -/
structure ResolveState where
  /-- `source - path` -/
  source : Nat
  /-- `target - output` -/
  target : Int
  /-- the running `max_output` -/
  max_output : Int
  /-- memory, addressed relative to `output` -/
  mem : Int → Char
  /-- indices at which `*target` was read -/
  reads : List Int
  /-- indices at which `*target` was written -/
  writes : List Int

/-- Lines 98-100: the state on entry, `source = path` and `target = output`. -/
def ResolveState.init (output : Int → Char) (max_output : Int) : ResolveState :=
  { source := 0, target := 0, max_output := max_output, mem := output, reads := [], writes := [] }

/-- Evaluate `*target`, recording the access. -/
def ResolveState.logRead (s : ResolveState) : ResolveState :=
  { s with reads := s.target :: s.reads }

/-- The assignment `*target = c`. -/
def ResolveState.store (s : ResolveState) (c : Char) : ResolveState :=
  { s with mem := fun j => if j = s.target then c else s.mem j,
           writes := s.target :: s.writes }

/-- Lines 180-184: `*target = *source; source += 1; target += 1; max_output -= 1`. -/
def copyChar (path : List Char) (past : Char) (s : ResolveState) : ResolveState :=
  { s.store (srcAt path past s.source) with
      source := s.source + 1, target := s.target + 1, max_output := s.max_output - 1 }

/-- Lines 157-165, the loop `do { if (*target is a separator) break;
target -= 1; max_output += 1; } while (target > output)`.  The first argument
bounds the number of iterations; `none` means the bound was too small. -/
def walkBack : Nat → ResolveState → Option ResolveState
  | 0, _ => none
  | fuel + 1, s =>
    let s1 := s.logRead
    if isSep (s.mem s.target) then some s1
    else
      let s2 := { s1 with target := s1.target - 1, max_output := s1.max_output + 1 }
      if s2.target > 0 then walkBack fuel s2 else some s2

/-- Lines 151-174: the handling of a `..` segment once `check` stands on the
character that follows it. -/
def parentDir (path : List Char) (past : Char) (s : ResolveState) (check : Nat) :
    Option ResolveState :=
  -- line 151
  let s1 := { s with source := check }
  -- lines 154-166
  let walked :=
    if s1.target ≠ 0 then
      walkBack ((s1.target - 1).toNat + 1) { s1 with target := s1.target - 1 }
    else some s1
  walked.map fun s2 =>
    -- lines 168-169
    let s3 :=
      if s2.target = 0 ∧ srcAt path past s2.source ≠ NUL then
        { s2 with source := s2.source + 1 }
      else s2
    -- lines 170-171
    let s4 :=
      if isSep (s3.mem s3.target) ∧ srcAt path past s3.source = NUL then
        { s3.logRead with target := s3.target + 1 }
      else s3.logRead
    -- line 173
    s4.store NUL

/-- One pass through the body of the `while` loop (lines 107-184). -/
def loopBody (path : List Char) (past : Char) (s : ResolveState) : Option ResolveState :=
  let src := srcAt path past
  -- lines 107-109
  let check := if isSep (src s.source) then s.source + 1 else s.source
  -- line 111; `*target` is evaluated only when the first two tests fail
  let s1 := if s.source = 0 ∨ check ≠ s.source then s else s.logRead
  if s.source = 0 ∨ check ≠ s.source ∨ s.mem s.target = NUL then
    -- line 114
    if isSep (src check) then
      some { s1 with source := s1.source + 1 }
    -- line 119
    else if src check ≠ NUL ∧ src check = '.' then
      let check := check + 1
      -- line 124
      if src check = NUL ∧ s.source ≠ 0 then
        some { s1.store (src s1.source) with
                 target := s1.target + 1, max_output := s1.max_output - 1, source := check }
      -- lines 135-138
      else if (src check = NUL ∨ isSep (src check)) ∧
          (src (check + 1) ≠ NUL ∨ s.source ≠ 0) then
        some { s1 with source := check }
      -- line 146
      else if src check ≠ NUL ∨ src check = '.' then
        let check := check + 1
        -- line 149
        if src check = NUL ∨ isSep (src check) then
          parentDir path past s1 check
        else some (copyChar path past s1)
      else some (copyChar path past s1)
    else some (copyChar path past s1)
  else some (copyChar path past s1)

/-- The `while (*source != 0 && max_output > 1)` loop of line 105.  The first
argument bounds the number of passes; `none` means the bound was too small. -/
def resolveLoop (path : List Char) (past : Char) : Nat → ResolveState → Option ResolveState
  | 0, _ => none
  | fuel + 1, s =>
    if srcAt path past s.source ≠ NUL ∧ s.max_output > 1 then
      (loopBody path past s).bind (resolveLoop path past fuel)
    else some s

/-- What a call of `mz_path_resolve` leaves behind. -/
structure ResolveResult where
  /-- the returned status -/
  status : Int
  /-- memory around `output` on return -/
  mem : Int → Char
  /-- indices read through `target`, latest first -/
  reads : List Int
  /-- indices written through `target`, latest first -/
  writes : List Int

/-- The function `mz_path_resolve(path, output, max_output)`: `path` is the
input string, `past` the byte behind its terminator, `output` the memory
around the output buffer on entry.  `none` only if an iteration bound of the
embedding were too small. -/
def mz_path_resolve (path : List Char) (past : Char) (output : Int → Char)
    (max_output : Int) : Option ResolveResult :=
  -- lines 102-103
  if max_output ≤ 0 then
    some { status := MZ_PARAM_ERROR, mem := output, reads := [], writes := [] }
  else
    (resolveLoop path past (path.length + 1) (ResolveState.init output max_output)).map fun s =>
      -- line 187
      let s1 := s.store NUL
      -- lines 189-192
      { status := if srcAt path past 0 = NUL then MZ_INTERNAL_ERROR else MZ_OK,
        mem := s1.mem, reads := s1.reads, writes := s1.writes }

/-- The output string on return, read from `output[0]` within `cap` bytes. -/
def ResolveResult.outStr (r : ResolveResult) (cap : Nat) : Option (List Char) :=
  readStr r.mem cap 0

/-! ## Shapes of paths -/

/-- No two adjacent separators. -/
def NoDupSep : List Char → Prop
  | a :: b :: t => ¬ (isSep a ∧ isSep b) ∧ NoDupSep (b :: t)
  | _ => True

instance NoDupSep.instDecidable : (p : List Char) → Decidable (NoDupSep p)
  | [] => inferInstanceAs (Decidable True)
  | [_] => inferInstanceAs (Decidable True)
  | a :: b :: t =>
    have := NoDupSep.instDecidable (b :: t)
    inferInstanceAs (Decidable (¬ (isSep a ∧ isSep b) ∧ NoDupSep (b :: t)))

/-- The segments of a path: the runs of characters between separators. -/
def segments (p : List Char) : List (List Char) :=
  p.splitOnP (fun c => c == '\\' || c == '/')

/-- The two characters that follow a `.` exist and are not separators. -/
def GuardedTail : List Char → Prop
  | a :: b :: _ => ¬ isSep a ∧ ¬ isSep b
  | _ => False

instance GuardedTail.instDecidable : (t : List Char) → Decidable (GuardedTail t)
  | [] => inferInstanceAs (Decidable False)
  | [_] => inferInstanceAs (Decidable False)
  | a :: b :: _ => inferInstanceAs (Decidable (¬ isSep a ∧ ¬ isSep b))

/-- Every `.` of the path is followed, inside its segment, by at least two
more characters. -/
def DotsGuarded : List Char → Prop
  | [] => True
  | c :: t => (c = '.' → GuardedTail t) ∧ DotsGuarded t

instance DotsGuarded.instDecidable : (p : List Char) → Decidable (DotsGuarded p)
  | [] => inferInstanceAs (Decidable True)
  | c :: t =>
    have := DotsGuarded.instDecidable t
    inferInstanceAs (Decidable ((c = '.' → GuardedTail t) ∧ DotsGuarded t))

/-- A path on which the resolver has nothing to do: a C string without two
adjacent separators in which every `.` is followed, inside its segment, by at
least two more characters (so no segment is `.`, `..` or a `.` and one more
character, and no segment ends in a `.` or in a `.` and one more character). -/
structure Plain (p : List Char) : Prop where
  cstr : IsCStr p
  nodup : NoDupSep p
  guarded : DotsGuarded p



/-! ## The observable results of a call of `mz_path_resolve` -/

/-- The status returned by `mz_path_resolve`. -/
def resolveStatus (path : List Char) (past : Char) (output : Int → Char) (max_output : Int) :
    Option Int :=
  (mz_path_resolve path past output max_output).map ResolveResult.status

/-- The string left in `output` by `mz_path_resolve`, read within the declared
capacity; `none` if no terminator is found there. -/
def resolveOutput (path : List Char) (past : Char) (output : Int → Char) (max_output : Int) :
    Option (List Char) :=
  (mz_path_resolve path past output max_output).bind fun r => r.outStr max_output.toNat

/-- The indices, relative to `output`, written by `mz_path_resolve`, latest first. -/
def resolveWrites (path : List Char) (past : Char) (output : Int → Char) (max_output : Int) :
    Option (List Int) :=
  (mz_path_resolve path past output max_output).map ResolveResult.writes

/-- The indices, relative to `output`, read by `mz_path_resolve`, latest first. -/
def resolveReads (path : List Char) (past : Char) (output : Int → Char) (max_output : Int) :
    Option (List Int) :=
  (mz_path_resolve path past output max_output).map ResolveResult.reads

/-! ## C library functions on a byte region

A `char *` buffer is the list of the bytes of the memory region that starts at
the pointer; the region may be longer than the capacity the caller declares.
An access outside the region has no defined result (`none`). -/

/-- The string stored at the start of a region: the bytes before the first
terminator. -/
def cstr (buf : List Char) : List Char := buf.takeWhile (fun c => c != NUL)

/-- C `strlen`: the index of the first terminator of the region. -/
def strlen (buf : List Char) : Option Nat :=
  if NUL ∈ buf then some (cstr buf).length else none

/-- The characters `strncpy` and `strncat` take from the string `src`: at most
`n`, stopping before its terminator. -/
def taken (src : List Char) (n : Nat) : List Char := (cstr src).take n

/-- C `strncpy(dest, src, n)`: writes exactly `n` bytes, the characters taken
from `src` followed by terminators as padding. -/
def strncpy (dest src : List Char) (n : Nat) : Option (List Char) :=
  if n ≤ dest.length then
    some (taken src n ++ List.replicate (n - (taken src n).length) NUL ++ dest.drop n)
  else none

/-- C `strncat(dest, src, n)`: overwrites from the terminator of `dest` on with
the characters taken from `src`, then writes a terminator. -/
def strncat (dest src : List Char) (n : Nat) : Option (List Char) :=
  (strlen dest).bind fun d =>
    let w := taken src n ++ [NUL]
    if d + w.length ≤ dest.length then
      some (dest.take d ++ w ++ dest.drop (d + w.length))
    else none

/-- Conversion of a `size_t` to `int32_t` (two's complement wrap). -/
def toInt32 (n : Nat) : Int := ((n : Int) + 2 ^ 31) % 2 ^ 32 - 2 ^ 31

/-- Conversion of an `int32_t` to a 64-bit `size_t`. -/
def toSizeT (x : Int) : Nat := (x % 2 ^ 64).toNat

/-! ## `mz_path_combine` (lines 73-94) -/

/-- The function `mz_path_combine(path, join, max_path)`.  A `NULL` pointer is
`none`; `path` is the region that starts at the pointer.  The result is the
status and the region afterwards, or `none` if the call leaves the region. -/
def mz_path_combine (path join : Option (List Char)) (max_path : Int) :
    Option (Int × Option (List Char)) :=
  match path, join with
  | some buf, some j =>
    -- line 77
    if max_path = 0 then some (MZ_PARAM_ERROR, some buf)
    else
      -- line 80
      (strlen buf).bind fun len =>
        let path_len := toInt32 len
        if path_len = 0 then
          -- line 84
          (strncpy buf j (toSizeT max_path)).map fun b => (MZ_OK, some b)
        else if 0 ≤ path_len - 1 ∧ path_len - 1 < buf.length then
          let last := buf.getD (path_len - 1).toNat NUL
          -- lines 88-89
          let joined :=
            if last ≠ '\\' ∧ last ≠ '/' then
              strncat buf ['/'] (toSizeT (max_path - path_len - 1))
            else some buf
          -- line 90
          joined.bind fun b =>
            (strncat b j (toSizeT (max_path - path_len))).map fun b' => (MZ_OK, some b')
        else none
  | _, _ => some (MZ_PARAM_ERROR, path)

/-! ## `mz_path_get_filename` (lines 217-236) -/

/-- The loop of lines 226-230 over the bytes from `match` on: `i` is
`match - path` and `f` the value of `*filename` (`none` for `NULL`, else the
offset into `path`).  The end of the list is the terminator. -/
def scanFilename : List Char → Nat → Option Nat → Option Nat
  | [], _, f => f
  | c :: cs, i, f =>
    if c = NUL then f
    else scanFilename cs (i + 1) (if isSep c then some (i + 1) else f)

/-- The function `mz_path_get_filename(path, filename)`.  A `NULL` pointer is
`none`; `filename` points to a cell that holds `NULL` (`none`) or a pointer
into `path` (its offset).  The result is the status and the cell afterwards. -/
def mz_path_get_filename (path : Option (List Char)) (filename : Option (Option Nat)) :
    Int × Option (Option Nat) :=
  match path, filename with
  | some p, some _ =>
    -- lines 224-230
    let f := scanFilename p 0 none
    -- lines 232-235
    if f = none then (MZ_EXIST_ERROR, some f) else (MZ_OK, some f)
  | _, _ => (MZ_PARAM_ERROR, filename)

/-! ## The combined path as the spec words it -/

/-- The result the spec states for `combine(path, segment)`: the segment alone
when `path` is empty, `path` followed by the segment when `path` ends in a
separator, and otherwise `path`, one `/`, and the segment. -/
def combineSpec (path segment : List Char) : List Char :=
  match path.getLast? with
  | none => segment
  | some c => if isSep c then path ++ segment else path ++ '/' :: segment

/-! ## `mz_path_remove_filename` (lines 195-215) -/

/-- The loop of lines 204-213, entered with `path_ptr = path + i`: it runs
while `path_ptr > path`, writes a terminator over the first separator it meets
and stops there. -/
def removeScan (buf : List Char) : Nat → List Char
  | 0 => buf
  | i + 1 =>
    if isSep (buf.getD (i + 1) NUL) then buf.set (i + 1) NUL else removeScan buf i

/-- The function `mz_path_remove_filename(path)`.  A `NULL` pointer is `none`;
`path` is the region that starts at the pointer.  The result is the status and
the region afterwards, or `none` if the region holds no terminator. -/
def mz_path_remove_filename (path : Option (List Char)) : Option (Int × Option (List Char)) :=
  match path with
  -- lines 199-200
  | none => some (MZ_PARAM_ERROR, none)
  | some buf =>
    (strlen buf).map fun (len : Nat) =>
      -- line 202
      let path_ptr : Int := (len : Int) - 1
      -- lines 204-214; with `path_ptr <= path` the loop is not entered
      (MZ_OK, some (if path_ptr > 0 then removeScan buf path_ptr.toNat else buf))

/-! ## `mz_make_dir` (lines 25-71) -/

/-- Conversion of a `size_t` to `int16_t` (two's complement wrap). -/
def toInt16 (n : Nat) : Int := ((n : Int) + 2 ^ 15) % 2 ^ 16 - 2 ^ 15

/-- C `strcpy(dest, src)`: writes the string `src` and its terminator at the
start of the region `dest`; `none` if they do not fit in the region. -/
def strcpy (dest src : List Char) : Option (List Char) :=
  let w := cstr src ++ [NUL]
  if w.length ≤ dest.length then some (w ++ dest.drop w.length) else none

/-- Lines 53-54, the loop `while (*match != 0 && *match != '\\' &&
*match != '/') match += 1`, on the buffer `cur` from the index `m` on.  The
first argument bounds the number of steps; `none` means the bound was too
small or the scan left the buffer. -/
def skipName (cur : List Char) : Nat → Nat → Option Nat
  | 0, _ => none
  | fuel + 1, m =>
    match cur.get? m with
    | none => none
    | some c =>
      if c ≠ NUL ∧ c ≠ '\\' ∧ c ≠ '/' then skipName cur fuel (m + 1) else some m

/-- What a call of `mz_make_dir` leaves behind. -/
structure MakeDirResult (σ : Type) where
  /-- the returned status -/
  status : Int
  /-- the state of the Directory Creator afterwards -/
  state : σ
  /-- the strings passed to `mz_os_make_dir`, in the order of the calls -/
  attempts : List (List Char)

/-- The `while (1)` loop of lines 51-66.  `cur` is the buffer `current_dir`,
`m` is `match - current_dir`, `st` the state of the Directory Creator and
`log` the attempts made so far.  The first argument bounds the number of
passes; `none` means the bound was too small or `match` left the buffer. -/
def makeDirLoop {σ : Type} (mz_os_make_dir : σ → List Char → Int × σ) :
    Nat → List Char → Nat → σ → List (List Char) → Option (MakeDirResult σ)
  | 0, _, _, _, _ => none
  | fuel + 1, cur, m, st, log =>
    -- lines 53-54
    (skipName cur cur.length m).bind fun m1 =>
      -- lines 55-56
      let hold := cur.getD m1 NUL
      let cur1 := cur.set m1 NUL
      -- line 58
      let r := mz_os_make_dir st (cstr cur1)
      let log1 := log ++ [cstr cur1]
      -- lines 59-62
      if r.1 ≠ MZ_OK then some { status := r.1, state := r.2, attempts := log1 }
      else if hold = NUL then some { status := r.1, state := r.2, attempts := log1 }
      -- lines 64-65
      else makeDirLoop mz_os_make_dir fuel (cur1.set m1 hold) (m1 + 1) r.2 log1

/-- The function `mz_make_dir(path)`.  `mz_os_make_dir` is the external
Directory Creator, a step on a state `σ`; `alloc` tells whether `MZ_ALLOC`
returns a buffer; `path` is the region that starts at the pointer, up to its
terminator.  The result is `none` if `strcpy` overruns the allocated buffer
(or if an iteration bound of the embedding were too small). -/
def mz_make_dir {σ : Type} (mz_os_make_dir : σ → List Char → Int × σ) (alloc : Bool)
    (path : List Char) (st : σ) : Option (MakeDirResult σ) :=
  -- line 34
  let len := toInt16 (cstr path).length
  -- lines 35-36
  if len ≤ 0 then some { status := 0, state := st, attempts := [] }
  -- lines 38-40
  else if alloc = false then some { status := MZ_MEM_ERROR, state := st, attempts := [] }
  else
    -- line 42; the fresh buffer of `len + 1` bytes is overwritten entirely
    (strcpy (List.replicate (len + 1).toNat NUL) path).bind fun cur0 =>
      -- lines 44-45
      let cur :=
        if cur0.getD (len - 1).toNat NUL = '/' then cur0.set (len - 1).toNat NUL else cur0
      -- line 47
      let r := mz_os_make_dir st (cstr cur)
      -- line 48
      if r.1 ≠ MZ_OK then
        -- lines 50-66
        makeDirLoop mz_os_make_dir (cur.length + 1) cur 1 r.2 [cstr cur]
      else some { status := r.1, state := r.2, attempts := [cstr cur] }

/-! ## A Directory Creator on a set of directories -/

/-- The parent of a directory name: what stands before its last separator;
`none` for a top-level name, one without separator. -/
def parentOf (d : List Char) : Option (List Char) :=
  match d.reverse.dropWhile (fun c => !(decide (isSep c))) with
  | [] => none
  | _ :: r => some r.reverse

/-- Modelled from the spec: the Directory Creator `mz_os_make_dir` is external
(platform code, not among the sources).  It is modelled, as the claim on
`mz_make_dir` words it, as a step on the set of existing directories that
succeeds exactly when the parent of the directory exists or the directory is
top-level, adding the directory unless it exists already; it fails with
`MZ_INTERNAL_ERROR` and changes nothing otherwise. -/
def fsMakeDir (fs : List (List Char)) (d : List Char) : Int × List (List Char) :=
  match parentOf d with
  | none => (MZ_OK, if d ∈ fs then fs else d :: fs)
  | some p =>
    if p ∈ fs then (MZ_OK, if d ∈ fs then fs else d :: fs) else (MZ_INTERNAL_ERROR, fs)

/-- A set of directories that holds the parent of each of its members. -/
def ParentClosed (fs : List (List Char)) : Prop :=
  ∀ d ∈ fs, ∀ p, parentOf d = some p → p ∈ fs

/-- A path made of non-empty segments joined by single separators. -/
structure SegPath (q : List Char) : Prop where
  cstr : IsCStr q
  nonempty : q ≠ []
  first : ∀ c, q.head? = some c → ¬ isSep c
  last : ∀ c, q.getLast? = some c → ¬ isSep c
  nodup : NoDupSep q

/-! ## `mz_get_file_crc` (lines 238-279) -/

/-- The external stream functions that `mz_get_file_crc` calls, as steps on a
state `S` of the two streams (the byte stream and the checksum transform set
on top of it by lines 246-253). -/
structure StreamOps (S : Type) where
  /-- `mz_stream_os_open(stream, path, MZ_OPEN_MODE_READ)` -/
  mz_stream_os_open : S → Int × S
  /-- `mz_stream_crc32_open(crc32_stream, NULL, MZ_OPEN_MODE_READ)` -/
  mz_stream_crc32_open : S → S
  /-- `mz_stream_crc32_read(crc32_stream, buf, sizeof(buf))` -/
  mz_stream_crc32_read : S → Int × S
  /-- `mz_stream_os_close(stream)` -/
  mz_stream_os_close : S → S
  /-- `mz_stream_crc32_close(crc32_stream)` -/
  mz_stream_crc32_close : S → S
  /-- `mz_stream_crc32_get_value(crc32_stream)` -/
  mz_stream_crc32_get_value : S → Nat

/-- The `do ... while ((err == MZ_OK) && (read > 0))` loop of lines 257-267,
returning `err` and the state.  The first argument bounds the number of
passes; `none` means the bound was too small. -/
def crcReadLoop {S : Type} (ops : StreamOps S) : Nat → Int → S → Option (Int × S)
  | 0, _, _ => none
  | fuel + 1, err, s =>
    -- line 259
    let r := ops.mz_stream_crc32_read s
    -- lines 261-265
    if r.1 < 0 then some (r.1, r.2)
    -- line 267
    else if err = MZ_OK ∧ r.1 > 0 then crcReadLoop ops fuel err r.2
    else some (err, r.2)

/-- The function `mz_get_file_crc(path, result_crc)` over the external stream
functions `ops`; `fuel` bounds the number of reads.  The result is the status,
the value stored in `*result_crc` and the state of the streams, or `none` if
the bound was too small. -/
def mz_get_file_crc {S : Type} (ops : StreamOps S) (fuel : Nat) (s : S) :
    Option (Int × Nat × S) :=
  -- line 248
  let o := ops.mz_stream_os_open s
  -- line 251
  let s1 := ops.mz_stream_crc32_open o.2
  -- lines 255-270
  let looped :=
    if o.1 = MZ_OK then
      (crcReadLoop ops fuel o.1 s1).map fun r => (r.1, ops.mz_stream_os_close r.2)
    else some (o.1, s1)
  looped.map fun r =>
    -- lines 272-273
    let s2 := ops.mz_stream_crc32_close r.2
    (r.1, ops.mz_stream_crc32_get_value s2, s2)

/-- The state of a scripted pair of streams. -/
structure ScriptState where
  /-- the status the byte stream answers to `open` -/
  open_status : Int
  /-- the results of the coming reads of the byte stream: the number returned
  and the bytes placed in the buffer -/
  script : List (Int × List Nat)
  /-- the accumulator of the checksum transform -/
  value : Nat
  /-- the number of reads performed -/
  reads : Nat

/-- Modelled from the spec: the stream functions are external (`mz_strm*.c`,
not among the sources).  The byte stream is an open status and a sequence of
read results, and at the end of the sequence a read returns 0.  The checksum
transform starts from `init` when opened; its read forwards to the byte stream
and, when bytes were read, folds them into the accumulator with `update`; its
value is the accumulator. -/
def scriptOps (init : Nat) (update : Nat → List Nat → Nat) : StreamOps ScriptState where
  mz_stream_os_open := fun s => (s.open_status, s)
  mz_stream_crc32_open := fun s => { s with value := init }
  mz_stream_crc32_read := fun s =>
    match s.script with
    | [] => (0, { s with reads := s.reads + 1 })
    | (n, data) :: rest =>
      (n, { s with script := rest, reads := s.reads + 1,
                   value := if n > 0 then update s.value data else s.value })
  mz_stream_os_close := fun s => s
  mz_stream_crc32_close := fun s => s
  mz_stream_crc32_get_value := fun s => s.value

/-! ## The attempts of `mz_make_dir` as the spec words them -/

/-- The candidates of the incremental walk over `pre ++ rest`, `pre` being
behind the cursor: the prefixes that end just before each separator of `rest`,
in increasing length, and then the whole string. -/
def prefixesFrom : List Char → List Char → List (List Char)
  | pre, [] => [pre]
  | pre, c :: cs =>
    if isSep c then pre :: prefixesFrom (pre ++ [c]) cs else prefixesFrom (pre ++ [c]) cs

/-- The candidates of the incremental walk of `mz_make_dir` over the string
`q`: the prefixes that end just before a separator found at an index >= 1, in
increasing length, and then `q` itself. -/
def dirPrefixes (q : List Char) : List (List Char) := prefixesFrom (q.take 1) (q.drop 1)

/-- Attempt the candidates in order with the Directory Creator, stop at the
first attempt that fails; the status is that of the last attempt made. -/
def attemptAll {σ : Type} (mz_os_make_dir : σ → List Char → Int × σ) :
    List (List Char) → σ → List (List Char) → MakeDirResult σ
  | [], st, log => { status := MZ_OK, state := st, attempts := log }
  | [d], st, log =>
    let r := mz_os_make_dir st d
    { status := r.1, state := r.2, attempts := log ++ [d] }
  | d :: d' :: ds, st, log =>
    let r := mz_os_make_dir st d
    if r.1 ≠ MZ_OK then { status := r.1, state := r.2, attempts := log ++ [d] }
    else attemptAll mz_os_make_dir (d' :: ds) r.2 (log ++ [d])

/-- The string `mz_make_dir` works on: the path without one trailing `/`. -/
def stripSlash (p : List Char) : List Char :=
  if p.getLast? = some '/' then p.dropLast else p

/-- Each directory of the list has the one before it as its parent, the first
one having `par` (`none`: it is top-level). -/
def ParentChain : Option (List Char) → List (List Char) → Prop
  | _, [] => True
  | par, d :: ds => parentOf d = par ∧ ParentChain (some d) ds


/-! ## Reading the input string, and termination of the scan -/

theorem srcAt_of_lt {p : List Char} {past : Char} {i : Nat} (h : i < p.length) :
    srcAt p past i = p.get ⟨i, h⟩ := by
  simp [srcAt, List.getD_eq_getElem?_getD, List.getElem?_append_left h, List.getElem?_eq_getElem h]

theorem srcAt_length (p : List Char) (past : Char) : srcAt p past p.length = NUL := by
  simp [srcAt, List.getD_eq_getElem?_getD]

theorem lt_of_srcAt_ne {p : List Char} {past : Char} {i : Nat} (h : i ≤ p.length)
    (hne : srcAt p past i ≠ NUL) : i < p.length := by
  rcases Nat.lt_or_ge i p.length with h1 | h1
  · exact h1
  · have : i = p.length := le_antisymm h h1
    subst this
    exact absurd (srcAt_length p past) hne

theorem dot_ne_NUL : ('.' : Char) ≠ NUL := by decide

/-- For a C string, the test `*path == 0` holds exactly for the empty string. -/
theorem srcAt_zero_eq_NUL_iff {p : List Char} (hp : IsCStr p) (past : Char) :
    srcAt p past 0 = NUL ↔ p = [] := by
  cases p with
  | nil => simp [srcAt]
  | cons c t =>
    have hc : c ≠ NUL := hp c (by simp)
    simp [srcAt, hc]

theorem walkBack_some (fuel : Nat) (s : ResolveState) (h : s.target.toNat < fuel) :
    ∃ s', walkBack fuel s = some s' ∧ s'.source = s.source := by
  induction fuel generalizing s with
  | zero => omega
  | succ n ih =>
    unfold walkBack
    by_cases hs : isSep (s.mem s.target)
    · simp [hs, ResolveState.logRead]
    · simp only [hs, if_false, ResolveState.logRead, gt_iff_lt, sub_pos]
      by_cases ht : 1 < s.target
      · simp only [ht, if_true]
        have := ih { s with target := s.target - 1, max_output := s.max_output + 1,
                            reads := s.target :: s.reads } (by simp only []; omega)
        simpa using this
      · simp [ht]

theorem parentDir_some (p : List Char) (past : Char) (s : ResolveState) (check : Nat)
    (hc : check ≤ p.length) :
    ∃ s', parentDir p past s check = some s' ∧ check ≤ s'.source ∧ s'.source ≤ p.length := by
  unfold parentDir
  by_cases ht : s.target ≠ 0
  · obtain ⟨s2, h2, h2s⟩ := walkBack_some ((s.target - 1).toNat + 1)
      { s with source := check, target := s.target - 1 } (by simp)
    simp only [ht, if_true, ne_eq, not_false_eq_true, h2, Option.map_some']
    refine ⟨_, rfl, ?_, ?_⟩
    · simp only [ResolveState.store, ResolveState.logRead]
      split_ifs <;> simp [h2s]
    · simp only [ResolveState.store, ResolveState.logRead]
      simp only [] at h2s
      split_ifs with h3 h4 h5 <;> simp [h2s, hc]
      all_goals
        have := lt_of_srcAt_ne (h2s ▸ hc) h3.2
        omega
  · simp only [ht, if_false, Option.map_some']
    refine ⟨_, rfl, ?_, ?_⟩
    · simp only [ResolveState.store, ResolveState.logRead]
      split_ifs <;> simp
    · simp only [ResolveState.store, ResolveState.logRead]
      split_ifs with h3 h4 h5 <;> simp [hc]
      all_goals
        have := lt_of_srcAt_ne hc h3.2
        omega

theorem loopBody_some (p : List Char) (past : Char) (s : ResolveState)
    (hs : s.source ≤ p.length) (hne : srcAt p past s.source ≠ NUL) :
    ∃ s', loopBody p past s = some s' ∧ s.source < s'.source ∧ s'.source ≤ p.length := by
  have hlt : s.source < p.length := lt_of_srcAt_ne hs hne
  -- the position of `check` after lines 107-109
  obtain ⟨c, hc, hcle, hsc⟩ : ∃ c : Nat,
      c = (if isSep (srcAt p past s.source) then s.source + 1 else s.source) ∧ c ≤ p.length ∧
        s.source ≤ c := by
    refine ⟨_, rfl, ?_, ?_⟩ <;> split_ifs <;> omega
  -- the state after the test of line 111 differs from `s` in `reads` only
  obtain ⟨s1, hs1, hsrc⟩ : ∃ s1 : ResolveState,
      s1 = (if s.source = 0 ∨ c ≠ s.source then s else s.logRead) ∧ s1.source = s.source := by
    refine ⟨_, rfl, ?_⟩
    split_ifs <;> rfl
  unfold loopBody
  simp only [← hc]
  simp only [← hs1]
  have hcopy : ∃ s', some (copyChar p past s1) = some s' ∧ s.source < s'.source ∧
      s'.source ≤ p.length := ⟨_, rfl, by simp [copyChar, ResolveState.store, hsrc], by
        simp [copyChar, ResolveState.store, hsrc]; omega⟩
  split_ifs with h1 h2 h3 h4 h5 h6 h7
  · exact ⟨_, rfl, by simp only [hsrc]; omega, by simp only [hsrc]; omega⟩
  · have hc1 : c < p.length := lt_of_srcAt_ne hcle h3.1
    refine ⟨_, rfl, ?_, ?_⟩
    · simp only [ResolveState.store]
      omega
    · simp only [ResolveState.store]; omega
  · have hc1 : c < p.length := lt_of_srcAt_ne hcle h3.1
    refine ⟨_, rfl, ?_, ?_⟩
    · simp only []; omega
    · simp only []; omega
  · have hc1 : c < p.length := lt_of_srcAt_ne hcle h3.1
    have hc2 : srcAt p past (c + 1) ≠ NUL := by
      rcases h6 with h | h
      · exact h
      · rw [h]; exact dot_ne_NUL
    have hc3 : c + 1 < p.length := lt_of_srcAt_ne hc1 hc2
    obtain ⟨s', h', hlo, hhi⟩ := parentDir_some p past s1 (c + 1 + 1) hc3
    exact ⟨s', h', by omega, hhi⟩
  · exact hcopy
  · exact hcopy
  · exact hcopy
  · exact hcopy

/-- The loop of `mz_path_resolve` ends: a bound of one more than the characters
left to scan is never exhausted, and the scan stays inside the string. -/
theorem resolveLoop_some (p : List Char) (past : Char) (fuel : Nat) (s : ResolveState)
    (hs : s.source ≤ p.length) (hf : p.length - s.source < fuel) :
    ∃ s', resolveLoop p past fuel s = some s' ∧ s'.source ≤ p.length := by
  induction fuel generalizing s with
  | zero => omega
  | succ n ih =>
    unfold resolveLoop
    split_ifs with h
    · obtain ⟨s1, h1, hlo, hhi⟩ := loopBody_some p past s hs h.1
      obtain ⟨s2, h2, h2s⟩ := ih s1 hhi (by omega)
      exact ⟨s2, by simp [h1, h2], h2s⟩
    · exact ⟨s, rfl, hs⟩

/-! ## Paths that are copied unchanged -/

theorem NUL_not_sep : ¬ isSep NUL := by decide

theorem noDupSep_at {p : List Char} (hp : NoDupSep p) (i : Nat) (h : i + 1 < p.length) :
    ¬ (isSep (p.get ⟨i, by omega⟩) ∧ isSep (p.get ⟨i + 1, h⟩)) := by
  induction p generalizing i with
  | nil => simp at h
  | cons a t ih =>
    cases t with
    | nil => simp at h
    | cons b t =>
      cases i with
      | zero => exact hp.1
      | succ k => exact ih hp.2 k (by simpa using h)

theorem dotsGuarded_at {p : List Char} (hp : DotsGuarded p) (past : Char) (i : Nat)
    (h : i < p.length) (hdot : srcAt p past i = '.') :
    i + 2 < p.length ∧ ¬ isSep (srcAt p past (i + 1)) ∧ ¬ isSep (srcAt p past (i + 2)) := by
  induction p generalizing i with
  | nil => simp at h
  | cons c t ih =>
    cases i with
    | zero =>
      have hc : c = '.' := by simpa [srcAt] using hdot
      have hg := hp.1 hc
      match t, hg with
      | a :: b :: u, hg => exact ⟨by simp, by simpa [srcAt] using hg.1, by simpa [srcAt] using hg.2⟩
    | succ k =>
      have hk : k < t.length := by simpa using h
      have hd : srcAt t past k = '.' := by simpa [srcAt] using hdot
      obtain ⟨h1, h2, h3⟩ := ih hp.2 k hk hd
      refine ⟨by simp; omega, ?_, ?_⟩
      · simpa [srcAt] using h2
      · simpa [srcAt] using h3

theorem Plain.char {p : List Char} (hp : Plain p) (past : Char) {i : Nat} (h : i < p.length) :
    srcAt p past i ≠ NUL := by
  rw [srcAt_of_lt h]
  exact hp.cstr _ (List.get_mem p i h)

/-- After a `.` of a plain path come two characters that are neither
separators nor the terminator. -/
theorem Plain.guard {p : List Char} (hp : Plain p) (past : Char) {i : Nat} (h : i ≤ p.length)
    (hdot : srcAt p past i = '.') :
    (srcAt p past (i + 1) ≠ NUL ∧ ¬ isSep (srcAt p past (i + 1))) ∧
    (srcAt p past (i + 1 + 1) ≠ NUL ∧ ¬ isSep (srcAt p past (i + 1 + 1))) := by
  have hlt : i < p.length := lt_of_srcAt_ne h (by rw [hdot]; exact dot_ne_NUL)
  obtain ⟨h1, h2, h3⟩ := dotsGuarded_at hp.guarded past i hlt hdot
  exact ⟨⟨hp.char past (by omega), h2⟩, ⟨hp.char past h1, h3⟩⟩

theorem Plain.adjacent {p : List Char} (hp : Plain p) (past : Char) {i : Nat}
    (h : i < p.length) : ¬ (isSep (srcAt p past i) ∧ isSep (srcAt p past (i + 1))) := by
  rcases Nat.lt_or_ge (i + 1) p.length with h1 | h1
  · rw [srcAt_of_lt h, srcAt_of_lt h1]
    exact noDupSep_at hp.nodup i h1
  · have : i + 1 = p.length := by omega
    rw [this, srcAt_length]
    exact fun e => NUL_not_sep e.2

/-- Where the character under `source` and the next one are not both
separators, and a `.` at either place is followed by two characters that are
neither separators nor the terminator, a pass of the loop copies one
character. -/
theorem loopBody_copy (p : List Char) (past : Char) (s : ResolveState)
    (h2 : ¬ (isSep (srcAt p past s.source) ∧ isSep (srcAt p past (s.source + 1))))
    (g0 : srcAt p past s.source = '.' →
      (srcAt p past (s.source + 1) ≠ NUL ∧ ¬ isSep (srcAt p past (s.source + 1))) ∧
      (srcAt p past (s.source + 1 + 1) ≠ NUL ∧ ¬ isSep (srcAt p past (s.source + 1 + 1))))
    (g1 : srcAt p past (s.source + 1) = '.' →
      (srcAt p past (s.source + 1 + 1) ≠ NUL ∧ ¬ isSep (srcAt p past (s.source + 1 + 1))) ∧
      (srcAt p past (s.source + 1 + 1 + 1) ≠ NUL ∧
        ¬ isSep (srcAt p past (s.source + 1 + 1 + 1)))) :
    loopBody p past s = some (copyChar p past s) ∨
      loopBody p past s = some (copyChar p past s.logRead) := by
  unfold loopBody
  by_cases hsep : isSep (srcAt p past s.source)
  · have hn : ¬ isSep (srcAt p past (s.source + 1)) := fun h => h2 ⟨hsep, h⟩
    by_cases hdot : srcAt p past (s.source + 1) = '.'
    · obtain ⟨⟨a1, a2⟩, ⟨b1, b2⟩⟩ := g1 hdot
      simp [hsep, hn, a1, a2, b1, b2]
    · simp [hsep, hn, hdot]
  · by_cases hdot : srcAt p past s.source = '.'
    · obtain ⟨⟨a1, a2⟩, ⟨b1, b2⟩⟩ := g0 hdot
      simp only [hsep, if_false, ne_eq, not_true_eq_false, or_false, a1, a2, b1, b2,
        not_false_eq_true, false_and, true_or, if_true, false_or]
      split_ifs <;> simp
    · simp only [hsep, if_false, ne_eq, not_true_eq_false, or_false, hdot, and_false]
      split_ifs <;> simp

/-- The state reached by the loop on a plain path: every remaining character
is copied, and nothing else is touched. -/
theorem resolveLoop_plain {p : List Char} (hp : Plain p) (past : Char) (n : Nat)
    (s : ResolveState) (hn : s.source + n = p.length) (hcap : (n : Int) < s.max_output) :
    ∃ s', resolveLoop p past (n + 1) s = some s' ∧
      s'.target = s.target + n ∧
      (∀ k : Nat, k < n → s'.mem (s.target + k) = srcAt p past (s.source + k)) ∧
      (∀ j : Int, j < s.target → s'.mem j = s.mem j) ∧
      (∀ w ∈ s'.writes, w ∈ s.writes ∨ (s.target ≤ w ∧ w < s.target + n)) ∧
      (∀ w ∈ s'.reads, w ∈ s.reads ∨ (s.target ≤ w ∧ w < s.target + n)) := by
  induction n generalizing s with
  | zero =>
    have h0 : s.source = p.length := by omega
    refine ⟨s, ?_, by simp, by simp, fun _ _ => rfl, fun w hw => Or.inl hw, fun w hw => Or.inl hw⟩
    simp [resolveLoop, h0, srcAt_length]
  | succ n ih =>
    have hlt : s.source < p.length := by omega
    have hcond : srcAt p past s.source ≠ NUL ∧ s.max_output > 1 :=
      ⟨hp.char past hlt, by omega⟩
    have hstep := loopBody_copy p past s (hp.adjacent past hlt)
      (hp.guard past (le_of_lt hlt)) (hp.guard past hlt)
    -- both alternatives copy the same character; they differ in `reads` only
    obtain ⟨t, ht, htsrc, httgt, htmax, htmem, htw, htr⟩ : ∃ t : ResolveState,
        loopBody p past s = some t ∧ t.source = s.source + 1 ∧ t.target = s.target + 1 ∧
        t.max_output = s.max_output - 1 ∧
        t.mem = (fun j => if j = s.target then srcAt p past s.source else s.mem j) ∧
        t.writes = s.target :: s.writes ∧
        (∀ w ∈ t.reads, w ∈ s.reads ∨ w = s.target) := by
      rcases hstep with h | h
      · exact ⟨_, h, rfl, rfl, rfl, rfl, rfl, fun w hw => Or.inl hw⟩
      · refine ⟨_, h, rfl, rfl, rfl, rfl, rfl, fun w hw => ?_⟩
        simp only [copyChar, ResolveState.store, ResolveState.logRead, List.mem_cons] at hw
        tauto
    obtain ⟨s', hs', h1, h2, h3, h4, h5⟩ := ih t (by omega) (by omega)
    refine ⟨s', ?_, ?_, ?_, ?_, ?_, ?_⟩
    · rw [resolveLoop, if_pos hcond, ht]; exact hs'
    · rw [h1, httgt]; push_cast; ring
    · intro k hk
      rcases Nat.eq_zero_or_pos k with hk0 | hk0
      · subst hk0
        have := h3 s.target (by omega)
        simp only [Nat.cast_zero, add_zero]
        rw [this, htmem]; simp
      · obtain ⟨k', rfl⟩ : ∃ k', k = k' + 1 := ⟨k - 1, by omega⟩
        have := h2 k' (by omega)
        rw [httgt, htsrc] at this
        have e1 : s.target + ((k' + 1 : Nat) : Int) = s.target + 1 + (k' : Int) := by
          push_cast; ring
        have e2 : s.source + (k' + 1) = s.source + 1 + k' := by ring
        rw [e1, e2]; exact this
    · intro j hj
      rw [h3 j (by omega), htmem]
      have : j ≠ s.target := by omega
      simp [this]
    · intro w hw
      rcases h4 w hw with h | h
      · rw [htw] at h
        rcases List.mem_cons.1 h with h | h
        · right; subst h; omega
        · exact Or.inl h
      · right; rw [httgt] at h; push_cast; omega
    · intro w hw
      rcases h5 w hw with h | h
      · rcases htr w h with h | h
        · exact Or.inl h
        · right; subst h; omega
      · right; rw [httgt] at h; push_cast; omega

theorem readStr_eq (mem : Int → Char) (past : Char) (p : List Char) (hp : IsCStr p) (i : Int)
    (n : Nat) (hn : p.length < n)
    (hag : ∀ k : Nat, k < p.length → mem (i + k) = srcAt p past k)
    (hend : mem (i + p.length) = NUL) : readStr mem n i = some p := by
  induction p generalizing i n with
  | nil =>
    obtain ⟨m, rfl⟩ : ∃ m, n = m + 1 := ⟨n - 1, by simp at hn; omega⟩
    simpa [readStr] using hend
  | cons c cs ih =>
    obtain ⟨m, rfl⟩ : ∃ m, n = m + 1 := ⟨n - 1, by omega⟩
    have h0 : mem i = c := by simpa [srcAt] using hag 0 (by simp)
    have hc : c ≠ NUL := hp c (by simp)
    have hrec := ih (fun d hd => hp d (List.mem_cons_of_mem _ hd)) (i + 1) m
      (by simp at hn; omega)
      (fun k hk => by
        have := hag (k + 1) (by simp; omega)
        have e : i + ((k + 1 : Nat) : Int) = i + 1 + (k : Int) := by push_cast; ring
        rw [e] at this
        rw [this]
        simp [srcAt])
      (by
        have e : i + ((c :: cs).length : Int) = i + 1 + (cs.length : Int) := by
          simp; ring
        rw [← e]; exact hend)
    simp [readStr, h0, hc, hrec]

/-- On a plain non-empty path with room for it, `mz_path_resolve` returns
`MZ_OK`, the output is the path itself, and only the cells `0 .. length` of the
output are accessed. -/
theorem mz_path_resolve_plain {p : List Char} (hp : Plain p) (hne : p ≠ []) (past : Char)
    (output : Int → Char) (max_output : Int) (hcap : (p.length : Int) < max_output) :
    ∃ r, mz_path_resolve p past output max_output = some r ∧ r.status = MZ_OK ∧
      r.outStr max_output.toNat = some p ∧
      (∀ w ∈ r.writes, 0 ≤ w ∧ w ≤ p.length) ∧ (∀ w ∈ r.reads, 0 ≤ w ∧ w < p.length) := by
  obtain ⟨s', hs', h1, h2, h3, h4, h5⟩ := resolveLoop_plain hp past p.length
    (ResolveState.init output max_output) (by simp [ResolveState.init])
    (by simpa [ResolveState.init] using hcap)
  have hpos : 0 < p.length := List.length_pos.2 hne
  have hnot : ¬ max_output ≤ 0 := by omega
  have h0 : srcAt p past 0 ≠ NUL := hp.char past hpos
  simp only [ResolveState.init, zero_add] at h1 h2 h4 h5
  refine ⟨_, by simp only [mz_path_resolve, if_neg hnot, hs', Option.map_some']; rfl, ?_, ?_, ?_, ?_⟩
  · simp [h0]
  · apply readStr_eq _ past p hp.cstr 0 _ (by omega)
    · intro k hk
      have : (0 : Int) + (k : Int) ≠ s'.target := by rw [h1]; omega
      simp only [ResolveState.store, this, if_false]
      rw [zero_add]; exact h2 k hk
    · simp [ResolveState.store, h1]
  · intro w hw
    simp only [ResolveState.store, List.mem_cons] at hw
    rcases hw with hw | hw
    · rw [hw, h1]; omega
    · rcases h4 w hw with h | h
      · simp at h
      · omega
  · intro w hw
    simp only [ResolveState.store] at hw
    rcases h5 w hw with h | h
    · simp at h
    · omega

/-- One pass of the loop of line 105, or its end. -/
theorem resolveLoop_succ (p : List Char) (past : Char) (fuel : Nat) (s : ResolveState) :
    resolveLoop p past (fuel + 1) s =
      if srcAt p past s.source ≠ NUL ∧ s.max_output > 1 then
        (loopBody p past s).bind (resolveLoop p past fuel)
      else some s := rfl

/-- The loop on `ab/c/../../.../b` with capacity 17, pass by pass, for every
buffer and every byte behind the path: it ends after eleven passes with the
cursor at index 4 and `../b` in the cells `0 .. 3`, and no cell outside
`0 .. 3` has been read or written. -/
theorem resolveLoop_stale_terminator (past : Char) (output : Int → Char) (fuel : Nat)
    (hf : 12 ≤ fuel) :
    ∃ s, resolveLoop
        ['a', 'b', '/', 'c', '/', '.', '.', '/', '.', '.', '/', '.', '.', '.', '/', 'b']
        past fuel (ResolveState.init output 17) = some s ∧
      s.target = 4 ∧ s.mem 0 = '.' ∧ s.mem 1 = '.' ∧ s.mem 2 = '/' ∧ s.mem 3 = 'b' ∧
      s.reads = [3, 2, 1, 0, 0, 1, 2, 2, 3, 3, 1] ∧
      s.writes = [3, 2, 1, 0, 0, 2, 3, 2, 1, 0] := by
  obtain ⟨m, rfl⟩ : ∃ m, fuel = m + 1 := ⟨fuel - 1, by omega⟩
  rw [resolveLoop_succ]
  simp [loopBody, parentDir, walkBack, copyChar, srcAt, ResolveState.store,
    ResolveState.logRead, ResolveState.init, NUL, isSep]
  generalize m = fuel at hf ⊢
  obtain ⟨m, rfl⟩ : ∃ m, fuel = m + 1 := ⟨fuel - 1, by omega⟩
  rw [resolveLoop_succ]
  simp [loopBody, parentDir, walkBack, copyChar, srcAt, ResolveState.store,
    ResolveState.logRead, ResolveState.init, NUL, isSep]
  generalize m = fuel at hf ⊢
  obtain ⟨m, rfl⟩ : ∃ m, fuel = m + 1 := ⟨fuel - 1, by omega⟩
  rw [resolveLoop_succ]
  simp [loopBody, parentDir, walkBack, copyChar, srcAt, ResolveState.store,
    ResolveState.logRead, ResolveState.init, NUL, isSep]
  generalize m = fuel at hf ⊢
  obtain ⟨m, rfl⟩ : ∃ m, fuel = m + 1 := ⟨fuel - 1, by omega⟩
  rw [resolveLoop_succ]
  simp [loopBody, parentDir, walkBack, copyChar, srcAt, ResolveState.store,
    ResolveState.logRead, ResolveState.init, NUL, isSep]
  generalize m = fuel at hf ⊢
  obtain ⟨m, rfl⟩ : ∃ m, fuel = m + 1 := ⟨fuel - 1, by omega⟩
  rw [resolveLoop_succ]
  simp [loopBody, parentDir, walkBack, copyChar, srcAt, ResolveState.store,
    ResolveState.logRead, ResolveState.init, NUL, isSep]
  generalize m = fuel at hf ⊢
  obtain ⟨m, rfl⟩ : ∃ m, fuel = m + 1 := ⟨fuel - 1, by omega⟩
  rw [resolveLoop_succ]
  simp [loopBody, parentDir, walkBack, copyChar, srcAt, ResolveState.store,
    ResolveState.logRead, ResolveState.init, NUL, isSep]
  generalize m = fuel at hf ⊢
  obtain ⟨m, rfl⟩ : ∃ m, fuel = m + 1 := ⟨fuel - 1, by omega⟩
  rw [resolveLoop_succ]
  simp [loopBody, parentDir, walkBack, copyChar, srcAt, ResolveState.store,
    ResolveState.logRead, ResolveState.init, NUL, isSep]
  generalize m = fuel at hf ⊢
  obtain ⟨m, rfl⟩ : ∃ m, fuel = m + 1 := ⟨fuel - 1, by omega⟩
  rw [resolveLoop_succ]
  simp [loopBody, parentDir, walkBack, copyChar, srcAt, ResolveState.store,
    ResolveState.logRead, ResolveState.init, NUL, isSep]
  generalize m = fuel at hf ⊢
  obtain ⟨m, rfl⟩ : ∃ m, fuel = m + 1 := ⟨fuel - 1, by omega⟩
  rw [resolveLoop_succ]
  simp [loopBody, parentDir, walkBack, copyChar, srcAt, ResolveState.store,
    ResolveState.logRead, ResolveState.init, NUL, isSep]
  generalize m = fuel at hf ⊢
  obtain ⟨m, rfl⟩ : ∃ m, fuel = m + 1 := ⟨fuel - 1, by omega⟩
  rw [resolveLoop_succ]
  simp [loopBody, parentDir, walkBack, copyChar, srcAt, ResolveState.store,
    ResolveState.logRead, ResolveState.init, NUL, isSep]
  generalize m = fuel at hf ⊢
  obtain ⟨m, rfl⟩ : ∃ m, fuel = m + 1 := ⟨fuel - 1, by omega⟩
  rw [resolveLoop_succ]
  simp [loopBody, parentDir, walkBack, copyChar, srcAt, ResolveState.store,
    ResolveState.logRead, ResolveState.init, NUL, isSep]
  generalize m = fuel at hf ⊢
  obtain ⟨m, rfl⟩ : ∃ m, fuel = m + 1 := ⟨fuel - 1, by omega⟩
  rw [resolveLoop_succ]
  simp [srcAt]

/-- The three outcomes of `mz_path_resolve`: the call always returns; it
refuses a capacity that is not positive and touches nothing; otherwise it
reports an empty path after writing the empty string, and succeeds on any
other path. -/
theorem mz_path_resolve_outcome (p : List Char) (past : Char) (output : Int → Char)
    (max_output : Int) :
    ∃ r, mz_path_resolve p past output max_output = some r ∧
      (max_output ≤ 0 → r.status = MZ_PARAM_ERROR ∧ r.mem = output ∧ r.writes = []) ∧
      (0 < max_output → srcAt p past 0 = NUL →
        r.status = MZ_INTERNAL_ERROR ∧ r.mem 0 = NUL) ∧
      (0 < max_output → srcAt p past 0 ≠ NUL → r.status = MZ_OK) := by
  by_cases hm : max_output ≤ 0
  · refine ⟨_, by simp only [mz_path_resolve, if_pos hm]; rfl, fun _ => ⟨rfl, rfl, rfl⟩, ?_, ?_⟩ <;>
      intro h <;> omega
  · obtain ⟨s', hs', _⟩ := resolveLoop_some p past (p.length + 1)
      (ResolveState.init output max_output) (Nat.zero_le _) (by simp [ResolveState.init])
    refine ⟨_, by simp only [mz_path_resolve, if_neg hm, hs', Option.map_some']; rfl,
      fun h => absurd h hm, ?_, ?_⟩
    · intro _ h0
      have e : resolveLoop p past (p.length + 1) (ResolveState.init output max_output) =
          some (ResolveState.init output max_output) := by
        rw [resolveLoop]
        simp only [ResolveState.init, h0, ne_eq, not_true_eq_false, false_and, if_false]
      rw [e] at hs'
      have : s' = ResolveState.init output max_output := (Option.some.inj hs').symm
      subst this
      simp [h0, ResolveState.store, ResolveState.init]
    · intro _ h0
      simp [h0]

/-! ## The claims about `mz_path_resolve` -/

/-- C1 (code defect).  The path `.a` has no `.` segment, no `..` segment and no
two adjacent separators, yet `mz_path_resolve` with room for it returns `MZ_OK`
and does not give the path back: the segment is taken for `..`, and the output
is empty, or the one separator that `output[0]` happened to hold. -/
theorem mz_path_resolve_dot_char_segment (past : Char) (output : Int → Char) :
    ['.'] ∉ segments ['.', 'a'] ∧ ['.', '.'] ∉ segments ['.', 'a'] ∧ NoDupSep ['.', 'a'] ∧
    resolveStatus ['.', 'a'] past output 3 = some MZ_OK ∧
    resolveOutput ['.', 'a'] past output 3 ≠ some ['.', 'a'] ∧
    resolveOutput ['.', 'a'] past output 3 =
      if isSep (output 0) then some [output 0] else some [] := by
  refine ⟨by decide, by decide, by decide, ?_⟩
  by_cases h : isSep (output 0)
  · have h0 : output 0 ≠ NUL := by
      rcases h with h | h <;> rw [h] <;> decide
    have h1 : output 0 ≠ '.' := by
      rcases h with h | h <;> rw [h] <;> decide
    simp +decide [resolveStatus, resolveOutput, mz_path_resolve, resolveLoop, loopBody, parentDir,
      srcAt, ResolveState.store, ResolveState.logRead, ResolveState.init, ResolveResult.outStr,
      readStr, h, h0, h1]
  · simp +decide [resolveStatus, resolveOutput, mz_path_resolve, resolveLoop, loopBody, parentDir,
      srcAt, ResolveState.store, ResolveState.logRead, ResolveState.init, ResolveResult.outStr,
      readStr, h, NUL, isSep]

/-- C2 (code defect).  The path `ab/c/../../.../b` resolves, with `MZ_OK`, to
`../b`, and resolving `../b` gives, with `MZ_OK`, the string `b`: the second
call does not give back the output of the first.  This holds whatever the two
buffers and the bytes behind the two paths hold, with capacity 17 in both
calls, and every read and write of both calls lies inside the buffer. -/
theorem mz_path_resolve_second_pass_differs (past past2 : Char) (output output2 : Int → Char) :
    resolveStatus ['a', 'b', '/', 'c', '/', '.', '.', '/', '.', '.', '/', '.', '.', '.', '/', 'b']
      past output 17 = some MZ_OK ∧
    resolveOutput ['a', 'b', '/', 'c', '/', '.', '.', '/', '.', '.', '/', '.', '.', '.', '/', 'b']
      past output 17 = some ['.', '.', '/', 'b'] ∧
    resolveStatus ['.', '.', '/', 'b'] past2 output2 17 = some MZ_OK ∧
    resolveOutput ['.', '.', '/', 'b'] past2 output2 17 = some ['b'] ∧
    resolveOutput ['.', '.', '/', 'b'] past2 output2 17 ≠
      resolveOutput ['a', 'b', '/', 'c', '/', '.', '.', '/', '.', '.', '/', '.', '.', '.', '/', 'b']
        past output 17 ∧
    resolveReads ['a', 'b', '/', 'c', '/', '.', '.', '/', '.', '.', '/', '.', '.', '.', '/', 'b']
      past output 17 = some [3, 2, 1, 0, 0, 1, 2, 2, 3, 3, 1] ∧
    resolveWrites ['a', 'b', '/', 'c', '/', '.', '.', '/', '.', '.', '/', '.', '.', '.', '/', 'b']
      past output 17 = some [4, 3, 2, 1, 0, 0, 2, 3, 2, 1, 0] ∧
    resolveReads ['.', '.', '/', 'b'] past2 output2 17 = some [0, 0] ∧
    resolveWrites ['.', '.', '/', 'b'] past2 output2 17 = some [1, 0, 0] := by
  obtain ⟨s, hs, ht, m0, m1, m2, m3, hr, hw⟩ :=
    resolveLoop_stale_terminator past output 17 (by decide)
  have h1 : resolveStatus
      ['a', 'b', '/', 'c', '/', '.', '.', '/', '.', '.', '/', '.', '.', '.', '/', 'b']
      past output 17 = some MZ_OK := by
    simp +decide [resolveStatus, mz_path_resolve, hs, srcAt]
  have h2 : resolveOutput
      ['a', 'b', '/', 'c', '/', '.', '.', '/', '.', '.', '/', '.', '.', '.', '/', 'b']
      past output 17 = some ['.', '.', '/', 'b'] := by
    simp +decide [resolveOutput, mz_path_resolve, hs, ResolveResult.outStr, readStr,
      ResolveState.store, ht, m0, m1, m2, m3, NUL]
  have h3 : resolveReads
      ['a', 'b', '/', 'c', '/', '.', '.', '/', '.', '.', '/', '.', '.', '.', '/', 'b']
      past output 17 = some [3, 2, 1, 0, 0, 1, 2, 2, 3, 3, 1] := by
    simp +decide [resolveReads, mz_path_resolve, hs, ResolveState.store, hr]
  have h4 : resolveWrites
      ['a', 'b', '/', 'c', '/', '.', '.', '/', '.', '.', '/', '.', '.', '.', '/', 'b']
      past output 17 = some [4, 3, 2, 1, 0, 0, 2, 3, 2, 1, 0] := by
    simp +decide [resolveWrites, mz_path_resolve, hs, ResolveState.store, hw, ht]
  have h5 : resolveStatus ['.', '.', '/', 'b'] past2 output2 17 = some MZ_OK ∧
      resolveOutput ['.', '.', '/', 'b'] past2 output2 17 = some ['b'] ∧
      resolveReads ['.', '.', '/', 'b'] past2 output2 17 = some [0, 0] ∧
      resolveWrites ['.', '.', '/', 'b'] past2 output2 17 = some [1, 0, 0] := by
    simp +decide [resolveStatus, resolveOutput, resolveReads, resolveWrites, mz_path_resolve,
      resolveLoop, loopBody, parentDir, walkBack, copyChar, srcAt, ResolveState.store,
      ResolveState.logRead, ResolveState.init, ResolveResult.outStr, readStr, NUL, isSep]
  refine ⟨h1, h2, h5.1, h5.2.1, ?_, h3, h4, h5.2.2.1, h5.2.2.2⟩
  rw [h2, h5.2.1]
  decide

/-- C3 (code defect).  On `a/../b` the call returns `MZ_OK` and leaves `b`, but
the backward walk over the one-character segment `a` steps to the byte before
the buffer: `output[-1]` is read, then written twice, whatever the buffer and
its surroundings held. -/
theorem mz_path_resolve_parent_underflow (past : Char) (output : Int → Char) :
    resolveStatus ['a', '/', '.', '.', '/', 'b'] past output 7 = some MZ_OK ∧
    resolveOutput ['a', '/', '.', '.', '/', 'b'] past output 7 = some ['b'] ∧
    resolveReads ['a', '/', '.', '.', '/', 'b'] past output 7 = some [0, -1, 0] ∧
    resolveWrites ['a', '/', '.', '.', '/', 'b'] past output 7 = some [1, 0, -1, -1, 0] ∧
    (mz_path_resolve ['a', '/', '.', '.', '/', 'b'] past output 7).map (fun r => r.mem (-1)) =
      some '/' := by
  simp +decide [resolveStatus, resolveOutput, resolveReads, resolveWrites, mz_path_resolve,
    resolveLoop, loopBody, parentDir, walkBack, copyChar, srcAt, ResolveState.store,
    ResolveState.logRead, ResolveState.init, ResolveResult.outStr, readStr, NUL, isSep]

/-- C4 (code defect).  On `a/..` with capacity 4 and a buffer that holds no
terminator on entry, the call returns `MZ_OK` after writing its terminators at
`output[-1]`: the cells `0 .. 3` hold `a` and what they held before, so the
output has no terminator within the capacity. -/
theorem mz_path_resolve_unterminated :
    resolveStatus ['a', '/', '.', '.'] NUL (fun _ => 'x') 4 = some MZ_OK ∧
    resolveWrites ['a', '/', '.', '.'] NUL (fun _ => 'x') 4 = some [-1, -1, 0] ∧
    (mz_path_resolve ['a', '/', '.', '.'] NUL (fun _ => 'x') 4).map
      (fun r => [r.mem (-1), r.mem 0, r.mem 1, r.mem 2, r.mem 3]) =
      some [NUL, 'a', 'x', 'x', 'x'] ∧
    resolveOutput ['a', '/', '.', '.'] NUL (fun _ => 'x') 4 = none := by
  decide

/-- C5 (code defect).  The path `./` with capacity 3 resolves, with `MZ_OK`,
to the empty string, or to the one separator that `output[0]` happened to
hold, and never to `.`: the test of line 138 keeps it out of the removal of
`.`, and the test of line 146 then takes it for `..`.  The path `.` resolves,
with `MZ_OK`, to `.` only if the byte behind its terminator, which line 138
reads as `check[1]`, is zero; otherwise it resolves to the empty string. -/
theorem mz_path_resolve_current_dir_lost (past : Char) (output : Int → Char) :
    resolveStatus ['.', '/'] past output 3 = some MZ_OK ∧
    (resolveOutput ['.', '/'] past output 3 =
      if isSep (output 0) then some [output 0] else some []) ∧
    resolveOutput ['.', '/'] past output 3 ≠ some ['.'] ∧
    resolveStatus ['.'] past output 3 = some MZ_OK ∧
    (resolveOutput ['.'] past output 3 = if past = NUL then some ['.'] else some []) := by
  have hA : resolveStatus ['.', '/'] past output 3 = some MZ_OK ∧
      (resolveOutput ['.', '/'] past output 3 =
        if isSep (output 0) then some [output 0] else some []) := by
    by_cases h : isSep (output 0)
    · have h0 : output 0 ≠ NUL := by
        rcases h with h | h <;> rw [h] <;> decide
      simp +decide [resolveStatus, resolveOutput, mz_path_resolve, resolveLoop, loopBody,
        parentDir, srcAt, ResolveState.store, ResolveState.logRead, ResolveState.init,
        ResolveResult.outStr, readStr, h, h0]
    · simp +decide [resolveStatus, resolveOutput, mz_path_resolve, resolveLoop, loopBody,
        parentDir, srcAt, ResolveState.store, ResolveState.logRead, ResolveState.init,
        ResolveResult.outStr, readStr, h, NUL, isSep]
  refine ⟨hA.1, hA.2, ?_, ?_, ?_⟩
  · rw [hA.2]
    by_cases h : isSep (output 0)
    · rw [if_pos h]
      intro e
      have e2 : output 0 = '.' := by simpa using e
      rw [e2] at h
      exact absurd h (by decide)
    · rw [if_neg h]; simp
  · by_cases hp : past = NUL
    · subst hp
      simp +decide [resolveStatus, mz_path_resolve, resolveLoop, loopBody, copyChar,
        srcAt, ResolveState.store, ResolveState.logRead, ResolveState.init, NUL, isSep]
    · simp +decide [resolveStatus, mz_path_resolve, resolveLoop, loopBody, copyChar,
        srcAt, ResolveState.store, ResolveState.logRead, ResolveState.init, hp]
  · by_cases hp : past = NUL
    · subst hp
      simp +decide [resolveOutput, mz_path_resolve, resolveLoop, loopBody, copyChar,
        srcAt, ResolveState.store, ResolveState.logRead, ResolveState.init,
        ResolveResult.outStr, readStr, NUL, isSep]
    · simp +decide [resolveOutput, mz_path_resolve, resolveLoop, loopBody, copyChar,
        srcAt, ResolveState.store, ResolveState.logRead, ResolveState.init,
        ResolveResult.outStr, readStr, hp]

/-- C6 (code defect).  The path `.a` is normal (no `.` or `..` segment, no
adjacent separators, no leading separator), yet `../.a` resolves, with
`MZ_OK`, to the empty string and not to `.a`: after the leading `..` the
segment `.a` is taken for a second `..`. -/
theorem mz_path_resolve_leading_parent_dot_char (past : Char) (output : Int → Char) :
    ['.'] ∉ segments ['.', 'a'] ∧ ['.', '.'] ∉ segments ['.', 'a'] ∧ NoDupSep ['.', 'a'] ∧
    resolveStatus ['.', '.', '/', '.', 'a'] past output 6 = some MZ_OK ∧
    resolveOutput ['.', '.', '/', '.', 'a'] past output 6 = some [] ∧
    resolveOutput ['.', '.', '/', '.', 'a'] past output 6 ≠ some ['.', 'a'] := by
  refine ⟨by decide, by decide, by decide, ?_⟩
  simp +decide [resolveStatus, resolveOutput, mz_path_resolve, resolveLoop, loopBody, parentDir,
    walkBack, copyChar, srcAt, ResolveState.store, ResolveState.logRead, ResolveState.init,
    ResolveResult.outStr, readStr, NUL, isSep]

/-- C7.  `mz_path_resolve` always returns.  It returns `MZ_PARAM_ERROR` exactly
when `max_output <= 0`, and then has written nothing; otherwise it returns
`MZ_INTERNAL_ERROR` exactly when the path is empty (`*path == 0`), leaving the
empty string in `output`; and on every non-empty path with `max_output > 0` it
returns `MZ_OK`. -/
theorem mz_path_resolve_status (p : List Char) (past : Char) (output : Int → Char)
    (max_output : Int) :
    (∃ r, mz_path_resolve p past output max_output = some r) ∧
    (resolveStatus p past output max_output = some MZ_PARAM_ERROR ↔ max_output ≤ 0) ∧
    (max_output ≤ 0 → resolveWrites p past output max_output = some [] ∧
      (mz_path_resolve p past output max_output).map ResolveResult.mem = some output) ∧
    (0 < max_output →
      (resolveStatus p past output max_output = some MZ_INTERNAL_ERROR ↔ srcAt p past 0 = NUL)) ∧
    (0 < max_output → srcAt p past 0 = NUL → resolveOutput p past output max_output = some []) ∧
    (0 < max_output → srcAt p past 0 ≠ NUL →
      resolveStatus p past output max_output = some MZ_OK) := by
  obtain ⟨r, hr, h1, h2, h3⟩ := mz_path_resolve_outcome p past output max_output
  simp only [resolveStatus, resolveWrites, resolveOutput, hr, Option.map_some', Option.some_bind,
    Option.some.injEq]
  refine ⟨⟨r, rfl⟩, ⟨fun h => ?_, fun h => (h1 h).1⟩, fun h => ⟨(h1 h).2.2, (h1 h).2.1⟩,
    fun h => ⟨fun hs => ?_, fun h0 => (h2 h h0).1⟩, fun h h0 => ?_, h3⟩
  · by_contra hm
    by_cases h0 : srcAt p past 0 = NUL
    · rw [(h2 (by omega) h0).1] at h; exact absurd h (by decide)
    · rw [h3 (by omega) h0] at h; exact absurd h (by decide)
  · by_contra h0
    rw [h3 h h0] at hs; exact absurd hs (by decide)
  · obtain ⟨k, hk⟩ : ∃ k : Nat, max_output.toNat = k + 1 := ⟨max_output.toNat - 1, by omega⟩
    simp [ResolveResult.outStr, hk, readStr, (h2 h h0).2]

/-- Witness for `mz_path_resolve_status`: the three outcomes on concrete calls. -/
theorem mz_path_resolve_status_witness :
    resolveStatus ['a'] NUL (fun _ => 'x') 0 = some MZ_PARAM_ERROR ∧
    resolveStatus [] NUL (fun _ => 'x') 2 = some MZ_INTERNAL_ERROR ∧
    resolveOutput [] NUL (fun _ => 'x') 2 = some [] ∧
    resolveStatus ['a'] NUL (fun _ => 'x') 2 = some MZ_OK :=
  have h0 := mz_path_resolve_status ['a'] NUL (fun _ => 'x') 0
  have h1 := mz_path_resolve_status [] NUL (fun _ => 'x') 2
  have h2 := mz_path_resolve_status ['a'] NUL (fun _ => 'x') 2
  ⟨h0.2.1.2 (by decide), (h1.2.2.2.1 (by decide)).2 (by decide),
    h1.2.2.2.2.1 (by decide) (by decide), h2.2.2.2.2.2 (by decide) (by decide)⟩

/-! ## `mz_path_combine` -/

theorem cstr_append_NUL (P rest : List Char) (hP : IsCStr P) : cstr (P ++ NUL :: rest) = P := by
  induction P with
  | nil => simp [cstr]
  | cons c cs ih =>
    have hc : c ≠ NUL := hP c (by simp)
    have := ih (fun d hd => hP d (List.mem_cons_of_mem _ hd))
    simp only [cstr] at this
    simp [cstr, List.takeWhile_cons, hc, this]

theorem cstr_of_isCStr (J : List Char) (hJ : IsCStr J) : cstr J = J := by
  induction J with
  | nil => simp [cstr]
  | cons c cs ih =>
    have hc : c ≠ NUL := hJ c (by simp)
    have := ih (fun d hd => hJ d (List.mem_cons_of_mem _ hd))
    simp only [cstr] at this
    simp only [cstr, List.takeWhile_cons, bne_iff_ne, ne_eq, hc, not_false_eq_true, if_true, this]

theorem strlen_append_NUL (P rest : List Char) (hP : IsCStr P) :
    strlen (P ++ NUL :: rest) = some P.length := by
  simp [strlen, cstr_append_NUL P rest hP]

theorem taken_all (J : List Char) (n : Nat) (hJ : IsCStr J) (hn : J.length ≤ n) :
    taken J n = J := by
  simp [taken, cstr_of_isCStr J hJ, List.take_of_length_le hn]

theorem strncat_fits (D S rest : List Char) (n : Nat) (hD : IsCStr D) (hS : IsCStr S)
    (hn : S.length ≤ n) (hfit : S.length ≤ rest.length) :
    strncat (D ++ NUL :: rest) S n = some ((D ++ S) ++ NUL :: rest.drop S.length) := by
  have h1 : D.length + (S.length + 1) ≤ D.length + (rest.length + 1) := by omega
  simp [strncat, strlen_append_NUL D rest hD, taken_all S n hS hn, h1, List.take_append_eq_append_take,
    List.drop_append_eq_append_drop]

theorem strncpy_fits (dest S : List Char) (n : Nat) (hS : IsCStr S) (h1 : S.length < n)
    (h2 : n ≤ dest.length) :
    strncpy dest S n =
      some (S ++ NUL :: (List.replicate (n - S.length - 1) NUL ++ dest.drop n)) := by
  obtain ⟨m, hm⟩ : ∃ m, n - S.length = m + 1 := ⟨n - S.length - 1, by omega⟩
  have hm' : n - S.length - 1 = m := by omega
  simp [strncpy, h2, taken_all S n hS (le_of_lt h1), hm, hm', List.replicate_succ]

theorem toInt32_small (n : Nat) (h : (n : Int) < 2 ^ 31) : toInt32 n = n := by
  unfold toInt32
  have h0 : (0 : Int) ≤ n := Int.ofNat_nonneg n
  rw [Int.emod_eq_of_lt (by omega) (by omega)]
  ring

theorem toSizeT_small (x : Int) (h0 : 0 ≤ x) (h : x < 2 ^ 31) : toSizeT x = x.toNat := by
  unfold toSizeT
  rw [Int.emod_eq_of_lt h0 (by omega)]

theorem mz_path_combine_empty (rest J : List Char) (max_path : Int) (hmax : max_path ≠ 0) :
    mz_path_combine (some (NUL :: rest)) (some J) max_path =
      (strncpy (NUL :: rest) J (toSizeT max_path)).map fun b => (MZ_OK, some b) := by
  have hlen : toInt32 0 = 0 := by decide
  unfold mz_path_combine
  simp only [if_neg hmax]
  rw [show strlen (NUL :: rest) = some 0 from strlen_append_NUL [] rest (by decide),
    Option.some_bind, hlen, if_pos rfl]

theorem mz_path_combine_nonempty (P' rest J : List Char) (c : Char) (max_path : Int)
    (hP : IsCStr (P' ++ [c])) (hmax : max_path ≠ 0) (h32 : ((P' ++ [c]).length : Int) < 2 ^ 31) :
    mz_path_combine (some ((P' ++ [c]) ++ NUL :: rest)) (some J) max_path =
      (if c ≠ '\\' ∧ c ≠ '/' then
          strncat ((P' ++ [c]) ++ NUL :: rest) ['/'] (toSizeT (max_path - (P' ++ [c]).length - 1))
        else some ((P' ++ [c]) ++ NUL :: rest)).bind fun b =>
        (strncat b J (toSizeT (max_path - (P' ++ [c]).length))).map fun b' => (MZ_OK, some b') := by
  have hlen : toInt32 (P' ++ [c]).length = (P' ++ [c]).length := toInt32_small _ h32
  have hPlen : (P' ++ [c]).length = P'.length + 1 := by simp
  have hne : ¬ (((P' ++ [c]).length : Int) = 0) := by omega
  have hidx : 0 ≤ ((P' ++ [c]).length : Int) - 1 ∧
      ((P' ++ [c]).length : Int) - 1 < (((P' ++ [c]) ++ NUL :: rest).length : Int) := by
    simp only [List.length_append, List.length_cons, Nat.cast_add, Nat.cast_one]; omega
  have hlast : ((P' ++ [c]) ++ NUL :: rest).getD (((P' ++ [c]).length : Int) - 1).toNat NUL
      = c := by
    have : (((P' ++ [c]).length : Int) - 1).toNat = P'.length := by omega
    rw [this, List.append_assoc, List.getD_eq_getElem?_getD,
      List.getElem?_append_right (le_refl _)]
    simp
  unfold mz_path_combine
  simp only [if_neg hmax]
  rw [strlen_append_NUL _ rest hP, Option.some_bind, hlen, if_neg hne, if_pos hidx, hlast]

/-- C8.  With `length(path) + length(segment) + 2 <= max_path` (and a buffer of
at least `max_path` bytes), `mz_path_combine` returns `MZ_OK` and leaves in the
buffer the segment alone if the path was empty, the path followed by the
segment if the path ended in a separator, and the path, one `/` and the
segment otherwise. -/
theorem mz_path_combine_spec (P J rest : List Char) (max_path : Int) (hP : IsCStr P)
    (hJ : IsCStr J) (hcap : (P.length : Int) + J.length + 2 ≤ max_path)
    (hreg : max_path ≤ (P ++ NUL :: rest).length) (h32 : max_path < 2 ^ 31) :
    ∃ buf, mz_path_combine (some (P ++ NUL :: rest)) (some J) max_path = some (MZ_OK, some buf) ∧
      buf.length = (P ++ NUL :: rest).length ∧ cstr buf = combineSpec P J := by
  have hmax : max_path ≠ 0 := by omega
  simp only [List.length_append, List.length_cons, Nat.cast_add, Nat.cast_one] at hreg
  rcases List.eq_nil_or_concat P with hnil | ⟨P', c, hPc⟩
  · -- empty path: `strncpy`
    subst hnil
    simp only [List.length_nil, Nat.cast_zero, zero_add] at hcap hreg
    have hn : toSizeT max_path = max_path.toNat := toSizeT_small _ (by omega) h32
    have hcpy := strncpy_fits (NUL :: rest) J max_path.toNat hJ (by omega)
      (by simp only [List.length_cons]; omega)
    refine ⟨J ++ NUL :: (List.replicate (max_path.toNat - J.length - 1) NUL ++
      List.drop max_path.toNat (NUL :: rest)), ?_, ?_, ?_⟩
    · rw [List.nil_append, mz_path_combine_empty rest J max_path hmax, hn, hcpy, Option.map_some']
    · simp only [List.length_append, List.length_cons, List.length_replicate, List.length_drop,
        List.length_nil, List.nil_append]
      omega
    · rw [cstr_append_NUL J _ hJ]; simp [combineSpec]
  · -- non-empty path: `strncat`
    rw [List.concat_eq_append] at hPc
    subst hPc
    have hPlen : (P' ++ [c]).length = P'.length + 1 := by simp
    have hcomb := mz_path_combine_nonempty P' rest J c max_path hP hmax (by omega)
    have hn2 : toSizeT (max_path - ((P' ++ [c]).length : Int)) =
        (max_path - ((P' ++ [c]).length : Int)).toNat := toSizeT_small _ (by omega) (by omega)
    have hgl : (P' ++ [c]).getLast? = some c := by simp
    have hPJ : IsCStr ((P' ++ [c]) ++ J) := by
      intro d hd
      rcases List.mem_append.1 hd with h | h
      · exact hP d h
      · exact hJ d h
    by_cases hsep : isSep c
    · -- the path ends in a separator
      have hcat := strncat_fits (P' ++ [c]) J rest (max_path - ((P' ++ [c]).length : Int)).toNat
        hP hJ (by omega) (by omega)
      have hno : ¬ (c ≠ '\\' ∧ c ≠ '/') := by
        rcases hsep with h | h <;> simp [h]
      refine ⟨((P' ++ [c]) ++ J) ++ NUL :: rest.drop J.length, ?_, ?_, ?_⟩
      · rw [hcomb, if_neg hno, Option.some_bind, hn2, hcat, Option.map_some']
      · simp only [List.length_append, List.length_cons, List.length_drop, List.length_nil]; omega
      · rw [cstr_append_NUL _ _ hPJ]
        simp [combineSpec, hsep]
    · -- a `/` is appended first
      have hn1 : toSizeT (max_path - ((P' ++ [c]).length : Int) - 1) =
          (max_path - ((P' ++ [c]).length : Int) - 1).toNat :=
        toSizeT_small _ (by omega) (by omega)
      have hslash : IsCStr ['/'] := by decide
      have hP1 : IsCStr ((P' ++ [c]) ++ ['/']) := by
        intro d hd
        rcases List.mem_append.1 hd with h | h
        · exact hP d h
        · exact hslash d h
      have hcat1 := strncat_fits (P' ++ [c]) ['/'] rest
        (max_path - ((P' ++ [c]).length : Int) - 1).toNat hP hslash
        (by simp only [List.length_singleton]; omega) (by simp only [List.length_singleton]; omega)
      have hcat2 := strncat_fits ((P' ++ [c]) ++ ['/']) J (rest.drop 1)
        (max_path - ((P' ++ [c]).length : Int)).toNat hP1 hJ
        (by omega) (by simp only [List.length_drop]; omega)
      simp only [List.length_singleton] at hcat1
      have hyes : c ≠ '\\' ∧ c ≠ '/' := ⟨fun h => hsep (Or.inl h), fun h => hsep (Or.inr h)⟩
      refine ⟨(((P' ++ [c]) ++ ['/']) ++ J) ++ NUL :: (rest.drop 1).drop J.length, ?_, ?_, ?_⟩
      · rw [hcomb, if_pos hyes, hn1, hcat1, Option.some_bind, hn2, hcat2, Option.map_some']
      · simp only [List.length_append, List.length_cons, List.length_drop, List.length_nil]; omega
      · rw [cstr_append_NUL _ _ (by
          intro d hd
          rcases List.mem_append.1 hd with h | h
          · exact hP1 d h
          · exact hJ d h)]
        simp [combineSpec, hsep]

/-- Witness for `mz_path_combine_spec`: the three examples of the spec,
`combine("", "x")`, `combine("a", "b")` and `combine("a/", "b")`, in buffers of
capacity 4 and 5. -/
theorem mz_path_combine_spec_witness :
    (∃ buf, mz_path_combine (some ([] ++ NUL :: ['y', 'y', 'y'])) (some ['x']) 4
        = some (MZ_OK, some buf) ∧
      buf.length = ([] ++ NUL :: ['y', 'y', 'y']).length ∧ cstr buf = combineSpec [] ['x']) ∧
    combineSpec [] ['x'] = ['x'] ∧
    (∃ buf, mz_path_combine (some (['a'] ++ NUL :: ['y', 'y'])) (some ['b']) 4
        = some (MZ_OK, some buf) ∧
      buf.length = (['a'] ++ NUL :: ['y', 'y']).length ∧ cstr buf = combineSpec ['a'] ['b']) ∧
    combineSpec ['a'] ['b'] = ['a', '/', 'b'] ∧
    (∃ buf, mz_path_combine (some (['a', '/'] ++ NUL :: ['y', 'y'])) (some ['b']) 5
        = some (MZ_OK, some buf) ∧
      buf.length = (['a', '/'] ++ NUL :: ['y', 'y']).length ∧
      cstr buf = combineSpec ['a', '/'] ['b']) ∧
    combineSpec ['a', '/'] ['b'] = ['a', '/', 'b'] :=
  ⟨mz_path_combine_spec [] ['x'] ['y', 'y', 'y'] 4 (by decide) (by decide) (by decide)
      (by decide) (by decide),
    by decide,
    mz_path_combine_spec ['a'] ['b'] ['y', 'y'] 4 (by decide) (by decide) (by decide)
      (by decide) (by decide),
    by decide,
    mz_path_combine_spec ['a', '/'] ['b'] ['y', 'y'] 5 (by decide) (by decide) (by decide)
      (by decide) (by decide),
    by decide⟩

/-- C9 (code defect).  With `max_path = 4`, the path `a` (length 1 < 4) and the
segment `bcdefgh`, `mz_path_combine` returns `MZ_OK` and leaves `a/bcd` in the
buffer: six bytes with the terminator, two of them written at the indices 4
and 5, past the declared capacity. -/
theorem mz_path_combine_overflow :
    mz_path_combine (some ['a', NUL, 'y', 'y', 'y', 'y', 'y', 'y'])
        (some ['b', 'c', 'd', 'e', 'f', 'g', 'h']) 4 =
      some (MZ_OK, some ['a', '/', 'b', 'c', 'd', NUL, 'y', 'y']) ∧
    (cstr ['a', '/', 'b', 'c', 'd', NUL, 'y', 'y']).length + 1 = 6 := by
  decide

/-! ## `mz_path_get_filename` -/

theorem scanFilename_nosep (l : List Char) (i : Nat) (f : Option Nat)
    (h : ∀ c ∈ l, ¬ isSep c) : scanFilename l i f = f := by
  induction l generalizing i with
  | nil => rfl
  | cons c cs ih =>
    have hc : ¬ isSep c := h c (by simp)
    unfold scanFilename
    split_ifs
    · rfl
    · exact ih (i + 1) (fun d hd => h d (List.mem_cons_of_mem _ hd))

theorem scanFilename_split (pre fname : List Char) (c : Char) (i : Nat) (f : Option Nat)
    (hpre : IsCStr pre) (hc : isSep c) (hf : ∀ d ∈ fname, ¬ isSep d) :
    scanFilename (pre ++ c :: fname) i f = some (i + pre.length + 1) := by
  induction pre generalizing i f with
  | nil =>
    have hc0 : c ≠ NUL := by rcases hc with h | h <;> rw [h] <;> decide
    simp only [List.nil_append, scanFilename, if_neg hc0, if_pos hc, List.length_nil, add_zero]
    exact scanFilename_nosep fname (i + 1) _ hf
  | cons a t ih =>
    have ha : a ≠ NUL := hpre a (by simp)
    have e : scanFilename (a :: t ++ c :: fname) i f =
        scanFilename (t ++ c :: fname) (i + 1) (if isSep a then some (i + 1) else f) := by
      rw [List.cons_append, scanFilename, if_neg ha]
    rw [e, ih (i + 1) _ (fun d hd => hpre d (List.mem_cons_of_mem _ hd)), List.length_cons]
    congr 1; omega

theorem exists_last_sep (p : List Char) (h : ∃ c ∈ p, isSep c) :
    ∃ pre c fname, p = pre ++ c :: fname ∧ isSep c ∧ ∀ d ∈ fname, ¬ isSep d := by
  induction p with
  | nil => obtain ⟨c, hc, _⟩ := h; simp at hc
  | cons a t ih =>
    by_cases ht : ∃ c ∈ t, isSep c
    · obtain ⟨pre, c, fname, e, hc, hf⟩ := ih ht
      exact ⟨a :: pre, c, fname, by rw [e]; rfl, hc, hf⟩
    · obtain ⟨c, hc, hs⟩ := h
      rcases List.mem_cons.1 hc with hc | hc
      · subst hc
        exact ⟨[], c, t, rfl, hs, fun d hd hds => ht ⟨d, hd, hds⟩⟩
      · exact absurd ⟨c, hc, hs⟩ ht

/-- C10.  `mz_path_get_filename` returns `MZ_EXIST_ERROR`, with `*filename`
left `NULL`, exactly when the path holds neither `/` nor `\`; otherwise it
returns `MZ_OK` and `*filename` points just behind the last separator: the
path is `pre ++ sep :: name` with no separator in `name`, and the offset
stored is `length pre + 1`, where the suffix `name` starts. -/
theorem mz_path_get_filename_spec (p : List Char) (hp : IsCStr p) (cell : Option Nat) :
    ((mz_path_get_filename (some p) (some cell)).1 = MZ_EXIST_ERROR ↔ ∀ c ∈ p, ¬ isSep c) ∧
    ((∀ c ∈ p, ¬ isSep c) →
      mz_path_get_filename (some p) (some cell) = (MZ_EXIST_ERROR, some none)) ∧
    ((∃ c ∈ p, isSep c) → ∃ pre c name, p = pre ++ c :: name ∧ isSep c ∧
      (∀ d ∈ name, ¬ isSep d) ∧ p.drop (pre.length + 1) = name ∧
      mz_path_get_filename (some p) (some cell) = (MZ_OK, some (some (pre.length + 1)))) := by
  have hno : (∀ c ∈ p, ¬ isSep c) →
      mz_path_get_filename (some p) (some cell) = (MZ_EXIST_ERROR, some none) := by
    intro h
    simp [mz_path_get_filename, scanFilename_nosep p 0 none h]
  have hyes : (∃ c ∈ p, isSep c) → ∃ pre c name, p = pre ++ c :: name ∧ isSep c ∧
      (∀ d ∈ name, ¬ isSep d) ∧ p.drop (pre.length + 1) = name ∧
      mz_path_get_filename (some p) (some cell) = (MZ_OK, some (some (pre.length + 1))) := by
    intro h
    obtain ⟨pre, c, name, e, hc, hf⟩ := exists_last_sep p h
    refine ⟨pre, c, name, e, hc, hf, by rw [e]; simp, ?_⟩
    have hpre : IsCStr pre := fun d hd => hp d (by rw [e]; simp [hd])
    have := scanFilename_split pre name c 0 none hpre hc hf
    rw [← e] at this
    simp [mz_path_get_filename, this]
  refine ⟨⟨fun h => ?_, fun h => by rw [hno h]⟩, hno, hyes⟩
  by_contra hcon
  push_neg at hcon
  obtain ⟨pre, c, name, _, _, _, _, hres⟩ := hyes (by
    obtain ⟨c, hc, hs⟩ := hcon
    exact ⟨c, hc, hs⟩)
  rw [hres] at h
  exact absurd (show MZ_OK = MZ_EXIST_ERROR from h) (by decide)

/-- Witness for `mz_path_get_filename_spec`: the examples of the spec,
`get_filename("a/b/c")` (the name `c` starts at offset 4) and
`get_filename("noslash")`. -/
theorem mz_path_get_filename_spec_witness :
    mz_path_get_filename (some ['a', '/', 'b', '/', 'c']) (some none) = (MZ_OK, some (some 4)) ∧
    List.drop 4 ['a', '/', 'b', '/', 'c'] = ['c'] ∧
    mz_path_get_filename (some ['n', 'o', 's', 'l', 'a', 's', 'h']) (some none) =
      (MZ_EXIST_ERROR, some none) :=
  ⟨by decide, by decide,
    (mz_path_get_filename_spec ['n', 'o', 's', 'l', 'a', 's', 'h'] (by decide) none).2.1
      (by decide)⟩

/-! ## Further claims about `mz_path_resolve` -/

/-- C16 (code defect).  On `a/..` the backward walk does not stop at index 0:
after `output[0]` it steps to `output[-1]`, which line 170 reads, whatever the
buffer holds; unless that byte is a separator, the terminators of lines 173
and 187 are written there. -/
theorem mz_path_resolve_cursor_before_buffer (past : Char) (output : Int → Char) :
    resolveStatus ['a', '/', '.', '.'] past output 5 = some MZ_OK ∧
    resolveReads ['a', '/', '.', '.'] past output 5 = some [-1, 0] ∧
    resolveWrites ['a', '/', '.', '.'] past output 5 =
      if isSep (output (-1)) then some [0, 0, 0] else some [-1, -1, 0] := by
  by_cases h : isSep (output (-1))
  · simp +decide [resolveStatus, resolveReads, resolveWrites, mz_path_resolve, resolveLoop,
      loopBody, parentDir, walkBack, copyChar, srcAt, ResolveState.store, ResolveState.logRead,
      ResolveState.init, h]
  · simp +decide [resolveStatus, resolveReads, resolveWrites, mz_path_resolve, resolveLoop,
      loopBody, parentDir, walkBack, copyChar, srcAt, ResolveState.store, ResolveState.logRead,
      ResolveState.init, h]

/-- C17 (code defect).  The path `..` with capacity 3 resolves to the empty
string in a buffer filled with `x` and to `/` in a buffer filled with `/`: the
test of line 170 reads `output[0]` before the call has written it. -/
theorem mz_path_resolve_depends_on_buffer :
    resolveStatus ['.', '.'] NUL (fun _ => 'x') 3 = some MZ_OK ∧
    resolveStatus ['.', '.'] NUL (fun _ => '/') 3 = some MZ_OK ∧
    resolveOutput ['.', '.'] NUL (fun _ => 'x') 3 = some [] ∧
    resolveOutput ['.', '.'] NUL (fun _ => '/') 3 = some ['/'] ∧
    resolveOutput ['.', '.'] NUL (fun _ => 'x') 3 ≠ resolveOutput ['.', '.'] NUL (fun _ => '/') 3 := by
  decide

/-- C18 (code defect).  The relative path `./x` resolves, with `MZ_OK`, to the
absolute path `/x`, whatever the buffer holds: the `.` is dropped and the
separator behind it is copied to the start of the output. -/
theorem mz_path_resolve_relative_to_absolute (past : Char) (output : Int → Char) :
    ¬ isSep '.' ∧
    resolveStatus ['.', '/', 'x'] past output 4 = some MZ_OK ∧
    resolveOutput ['.', '/', 'x'] past output 4 = some ['/', 'x'] := by
  refine ⟨by decide, ?_⟩
  by_cases h : output 1 = NUL
  · simp +decide [resolveStatus, resolveOutput, mz_path_resolve, resolveLoop, loopBody, copyChar,
      srcAt, ResolveState.store, ResolveState.logRead, ResolveState.init, ResolveResult.outStr,
      readStr, h, NUL, isSep]
  · simp +decide [resolveStatus, resolveOutput, mz_path_resolve, resolveLoop, loopBody, copyChar,
      srcAt, ResolveState.store, ResolveState.logRead, ResolveState.init, ResolveResult.outStr,
      readStr, h, NUL, isSep]

/-- C19 (code defect).  The path `ab/c/../../.../b` (16 characters) with
capacity 17 resolves, with `MZ_OK`, to `../b`, whose first segment is `..`: the
second `..` leaves the cursor at the start with the terminator of the first
still at `output[2]`, and the test of line 111 takes that stale byte for the
start of a segment and drops the third `.` of `...`. -/
theorem mz_path_resolve_leaves_parent_segment :
    resolveStatus ['a', 'b', '/', 'c', '/', '.', '.', '/', '.', '.', '/', '.', '.', '.', '/', 'b']
      NUL (fun _ => 'x') 17 = some MZ_OK ∧
    resolveOutput ['a', 'b', '/', 'c', '/', '.', '.', '/', '.', '.', '/', '.', '.', '.', '/', 'b']
      NUL (fun _ => 'x') 17 = some ['.', '.', '/', 'b'] ∧
    ['.', '.'] ∈ segments ['.', '.', '/', 'b'] ∧
    (∀ w, resolveWrites
        ['a', 'b', '/', 'c', '/', '.', '.', '/', '.', '.', '/', '.', '.', '.', '/', 'b']
        NUL (fun _ => 'x') 17 = some w → ∀ i ∈ w, 0 ≤ i ∧ i < 17) := by
  refine ⟨by decide, by decide, by decide, ?_⟩
  intro w hw
  have : resolveWrites
      ['a', 'b', '/', 'c', '/', '.', '.', '/', '.', '.', '/', '.', '.', '.', '/', 'b']
      NUL (fun _ => 'x') 17 = some [4, 3, 2, 1, 0, 0, 2, 3, 2, 1, 0] := by decide
  rw [this] at hw
  cases hw
  decide

/-! ## `mz_path_remove_filename` -/

theorem removeScan_none (buf : List Char) (i : Nat)
    (h : ∀ j, 1 ≤ j → j ≤ i → ¬ isSep (buf.getD j NUL)) : removeScan buf i = buf := by
  induction i with
  | zero => rfl
  | succ k ih =>
    rw [removeScan, if_neg (h (k + 1) (by omega) (le_refl _))]
    exact ih (fun j h1 h2 => h j h1 (by omega))

theorem removeScan_hit (buf : List Char) (i k : Nat) (hk : 1 ≤ k) (hki : k ≤ i)
    (hsep : isSep (buf.getD k NUL))
    (h : ∀ j, k < j → j ≤ i → ¬ isSep (buf.getD j NUL)) : removeScan buf i = buf.set k NUL := by
  induction i with
  | zero => omega
  | succ m ih =>
    rcases Nat.lt_or_ge k (m + 1) with hlt | hge
    · rw [removeScan, if_neg (h (m + 1) hlt (le_refl _))]
      exact ih (by omega) (fun j h1 h2 => h j h1 (by omega))
    · have : k = m + 1 := by omega
      subst this
      rw [removeScan, if_pos hsep]

theorem getD_append_NUL_left (P rest : List Char) (j : Nat) (h : j < P.length) :
    (P ++ NUL :: rest).getD j NUL = P.getD j NUL := by
  simp [List.getD_eq_getElem?_getD, List.getElem?_append_left h]

/-- C11.  `mz_path_remove_filename` returns `MZ_OK`.  If the path has no
separator at an index >= 1 (no separator at all, or only as its first
character), the buffer is left unchanged.  If it has one, so that the path is
`pre ++ sep :: name` with `pre` non-empty and no separator in `name`, a
terminator is written over that last separator and the path becomes `pre`. -/
theorem mz_path_remove_filename_spec (P rest : List Char) (hP : IsCStr P) :
    ((∀ i, 1 ≤ i → i < P.length → ¬ isSep (P.getD i NUL)) →
      mz_path_remove_filename (some (P ++ NUL :: rest)) =
        some (MZ_OK, some (P ++ NUL :: rest))) ∧
    (∀ pre c name, P = pre ++ c :: name → pre ≠ [] → isSep c → (∀ d ∈ name, ¬ isSep d) →
      mz_path_remove_filename (some (P ++ NUL :: rest)) =
        some (MZ_OK, some (pre ++ NUL :: (name ++ NUL :: rest))) ∧
      cstr (pre ++ NUL :: (name ++ NUL :: rest)) = pre) := by
  have hlen : strlen (P ++ NUL :: rest) = some P.length := strlen_append_NUL P rest hP
  constructor
  · intro h
    simp only [mz_path_remove_filename, hlen, Option.map_some']
    split_ifs with hpos
    · rw [removeScan_none]
      intro j h1 h2
      have hj : j < P.length := by omega
      rw [getD_append_NUL_left P rest j hj]
      exact h j h1 hj
    · rfl
  · intro pre c name hsplit hpre hc hname
    have hprelen : 1 ≤ pre.length := List.length_pos.2 hpre
    have hPlen : P.length = pre.length + (name.length + 1) := by rw [hsplit]; simp
    have hpos : ((P.length : Int) - 1) > 0 := by omega
    have htoNat : ((P.length : Int) - 1).toNat = pre.length + name.length := by omega
    have hpreC : IsCStr pre := fun d hd => hP d (by rw [hsplit]; simp [hd])
    refine ⟨?_, cstr_append_NUL pre _ hpreC⟩
    simp only [mz_path_remove_filename, hlen, Option.map_some', if_pos hpos, htoNat]
    have hbuf : P ++ NUL :: rest = pre ++ c :: (name ++ NUL :: rest) := by
      rw [hsplit]; simp
    rw [hbuf, removeScan_hit _ (pre.length + name.length) pre.length hprelen (by omega)]
    · simp
    · rw [List.getD_eq_getElem?_getD, List.getElem?_append_right (le_refl _)]
      simpa using hc
    · intro j h1 h2
      obtain ⟨t, rfl⟩ : ∃ t, j = pre.length + 1 + t := ⟨j - pre.length - 1, by omega⟩
      have ht : t < name.length := by omega
      have e : (pre ++ c :: (name ++ NUL :: rest)).getD (pre.length + 1 + t) NUL = name.get ⟨t, ht⟩ := by
        have h3 : pre ++ c :: (name ++ NUL :: rest) = (pre ++ [c]) ++ (name ++ NUL :: rest) := by simp
        rw [h3, List.getD_eq_getElem?_getD,
          List.getElem?_append_right (by simp : (pre ++ [c]).length ≤ pre.length + 1 + t)]
        simp [List.getElem?_append_left ht, List.getElem?_eq_getElem ht]
      rw [e]
      exact hname _ (List.get_mem name t ht)

/-- Witness for `mz_path_remove_filename_spec`: `a/b/c` becomes `a/b`, and
`noslash` and `/abc` are left as they are. -/
theorem mz_path_remove_filename_spec_witness :
    (mz_path_remove_filename (some (['a', '/', 'b', '/', 'c'] ++ NUL :: ['y'])) =
        some (MZ_OK, some (['a', '/', 'b'] ++ NUL :: (['c'] ++ NUL :: ['y']))) ∧
      cstr (['a', '/', 'b'] ++ NUL :: (['c'] ++ NUL :: ['y'])) = ['a', '/', 'b']) ∧
    mz_path_remove_filename (some (['n', 'o', 's', 'l', 'a', 's', 'h'] ++ NUL :: ['y'])) =
      some (MZ_OK, some (['n', 'o', 's', 'l', 'a', 's', 'h'] ++ NUL :: ['y'])) ∧
    mz_path_remove_filename (some (['/', 'a', 'b', 'c'] ++ NUL :: ['y'])) =
      some (MZ_OK, some (['/', 'a', 'b', 'c'] ++ NUL :: ['y'])) :=
  ⟨(mz_path_remove_filename_spec ['a', '/', 'b', '/', 'c'] ['y'] (by decide)).2
      ['a', '/', 'b'] '/' ['c'] rfl (by decide) (by decide) (by decide),
    (mz_path_remove_filename_spec ['n', 'o', 's', 'l', 'a', 's', 'h'] ['y'] (by decide)).1
      (by decide),
    (mz_path_remove_filename_spec ['/', 'a', 'b', 'c'] ['y'] (by decide)).1 (by decide)⟩

/-! ## `mz_make_dir` -/

theorem isCStr_replicate (n : Nat) (c : Char) (hc : c ≠ NUL) : IsCStr (List.replicate n c) := by
  intro d hd
  rw [(List.mem_replicate.1 hd).2]
  exact hc

/-- On a path whose length, taken modulo 2^16 as a signed 16-bit number, is not
positive, `mz_make_dir` returns 0 at once. -/
theorem mz_make_dir_wrapped {σ : Type} (mz_os_make_dir : σ → List Char → Int × σ) (alloc : Bool)
    (path : List Char) (st : σ) (h : toInt16 (cstr path).length ≤ 0) :
    mz_make_dir mz_os_make_dir alloc path st =
      some { status := 0, state := st, attempts := [] } := by
  simp only [mz_make_dir, if_pos h]


theorem get?_append_length (pre more : List Char) (s : Char) :
    (pre ++ s :: more).get? pre.length = some s := by
  rw [List.get?_eq_getElem?, List.getElem?_append_right (le_refl _)]
  simp

theorem getD_append_length (pre more : List Char) (s : Char) :
    (pre ++ s :: more).getD pre.length NUL = s := by
  rw [List.getD_eq_getElem?_getD, List.getElem?_append_right (le_refl _)]
  simp

theorem set_append_length (pre more : List Char) (s t : Char) :
    (pre ++ s :: more).set pre.length t = pre ++ t :: more := by
  rw [List.set_append_right _ _ (le_refl _)]
  simp

theorem skipName_spec (pre name more : List Char) (s : Char) (fuel : Nat)
    (hname : ∀ c ∈ name, c ≠ NUL ∧ ¬ isSep c) (hs : s = NUL ∨ isSep s)
    (hf : name.length < fuel) :
    skipName (pre ++ (name ++ s :: more)) fuel pre.length = some (pre.length + name.length) := by
  induction name generalizing pre fuel with
  | nil =>
    obtain ⟨f, rfl⟩ : ∃ f, fuel = f + 1 := ⟨fuel - 1, by simp at hf; omega⟩
    have hcond : ¬ (s ≠ NUL ∧ s ≠ '\\' ∧ s ≠ '/') := by
      rcases hs with h | h | h <;> simp [h]
    simp only [List.nil_append, skipName, get?_append_length, if_neg hcond, List.length_nil,
      add_zero]
  | cons c cs ih =>
    obtain ⟨f, rfl⟩ : ∃ f, fuel = f + 1 := ⟨fuel - 1, by omega⟩
    have hc := hname c (by simp)
    have hcond : c ≠ NUL ∧ c ≠ '\\' ∧ c ≠ '/' :=
      ⟨hc.1, fun h => hc.2 (Or.inl h), fun h => hc.2 (Or.inr h)⟩
    have hrec := ih (pre ++ [c]) f (fun d hd => hname d (List.mem_cons_of_mem _ hd))
      (by simpa using hf)
    simp only [List.append_assoc, List.singleton_append, List.length_append,
      List.length_singleton] at hrec
    simp only [List.cons_append, skipName, get?_append_length, if_pos hcond, List.length_cons,
      hrec]
    congr 1; omega

theorem prefixesFrom_ne_nil (pre rest : List Char) : prefixesFrom pre rest ≠ [] := by
  induction rest generalizing pre with
  | nil => simp [prefixesFrom]
  | cons c cs ih =>
    unfold prefixesFrom
    split_ifs
    · simp
    · exact ih _

theorem prefixesFrom_append (pre name tail : List Char) (hname : ∀ c ∈ name, ¬ isSep c) :
    prefixesFrom pre (name ++ tail) = prefixesFrom (pre ++ name) tail := by
  induction name generalizing pre with
  | nil => simp
  | cons c cs ih =>
    have hc : ¬ isSep c := hname c (by simp)
    rw [List.cons_append, prefixesFrom, if_neg hc,
      ih (pre ++ [c]) (fun d hd => hname d (List.mem_cons_of_mem _ hd))]
    simp

theorem attemptAll_cons {σ : Type} (mk : σ → List Char → Int × σ) (d : List Char)
    (ds : List (List Char)) (hds : ds ≠ []) (st : σ) (log : List (List Char)) :
    attemptAll mk (d :: ds) st log =
      if (mk st d).1 ≠ MZ_OK then
        { status := (mk st d).1, state := (mk st d).2, attempts := log ++ [d] }
      else attemptAll mk ds (mk st d).2 (log ++ [d]) := by
  cases ds with
  | nil => exact absurd rfl hds
  | cons d' ds' => rfl

/-- Every string splits into a first run without separator and a remainder
that is empty or starts with a separator. -/
theorem exists_name_split (rest : List Char) :
    ∃ name tail, rest = name ++ tail ∧ (∀ c ∈ name, ¬ isSep c) ∧
      (tail = [] ∨ ∃ s tail', tail = s :: tail' ∧ isSep s) := by
  induction rest with
  | nil => exact ⟨[], [], rfl, by simp, Or.inl rfl⟩
  | cons c cs ih =>
    by_cases hc : isSep c
    · exact ⟨[], c :: cs, rfl, by simp, Or.inr ⟨c, cs, rfl, hc⟩⟩
    · obtain ⟨name, tail, e, h1, h2⟩ := ih
      refine ⟨c :: name, tail, by rw [e]; rfl, ?_, h2⟩
      intro d hd
      rcases List.mem_cons.1 hd with h | h
      · rw [h]; exact hc
      · exact h1 d h

theorem sep_ne_NUL {c : Char} (h : isSep c) : c ≠ NUL := by
  rcases h with h | h <;> rw [h] <;> decide

/-- The loop of `mz_make_dir`, entered with the cursor behind `pre` in the
buffer `pre ++ rest` and its terminator, attempts the candidates
`prefixesFrom pre rest` in order and stops at the first failure. -/
theorem makeDirLoop_eq {σ : Type} (mk : σ → List Char → Int × σ) (fuel : Nat)
    (pre rest pad : List Char) (st : σ) (log : List (List Char))
    (hc : IsCStr (pre ++ rest)) (hf : rest.length < fuel) :
    makeDirLoop mk fuel (pre ++ rest ++ NUL :: pad) pre.length st log =
      some (attemptAll mk (prefixesFrom pre rest) st log) := by
  induction fuel generalizing pre rest st log with
  | zero => omega
  | succ f ih =>
    obtain ⟨name, tail, hsplit, hname, htail⟩ := exists_name_split rest
    subst hsplit
    have hname' : ∀ c ∈ name, c ≠ NUL ∧ ¬ isSep c :=
      fun c h => ⟨hc c (by simp [h]), hname c h⟩
    have hpn : IsCStr (pre ++ name) := fun c h => hc c (by
      rcases List.mem_append.1 h with h | h <;> simp [h])
    have hlen : pre.length + name.length = (pre ++ name).length := by simp
    rcases htail with rfl | ⟨s, tail', rfl, hs⟩
    · -- the cursor reaches the terminator: the last attempt
      have hbuf : pre ++ (name ++ []) ++ NUL :: pad = pre ++ (name ++ NUL :: pad) := by simp
      have hbuf' : pre ++ (name ++ NUL :: pad) = (pre ++ name) ++ NUL :: pad := by simp
      have hskip := skipName_spec pre name pad NUL
        (pre ++ (name ++ NUL :: pad)).length hname' (Or.inl rfl) (by simp; omega)
      have hpf := prefixesFrom_append pre name [] hname
      rw [hbuf, makeDirLoop, hskip, Option.some_bind, hpf]
      simp only [hbuf', hlen, getD_append_length, set_append_length,
        cstr_append_NUL _ pad hpn, ne_eq, if_true, ite_self, prefixesFrom, attemptAll]
    · -- the cursor reaches a separator: attempt, restore, go on behind it
      have hbuf : pre ++ (name ++ s :: tail') ++ NUL :: pad =
          pre ++ (name ++ s :: (tail' ++ NUL :: pad)) := by simp
      have hbuf' : pre ++ (name ++ s :: (tail' ++ NUL :: pad)) =
          (pre ++ name) ++ s :: (tail' ++ NUL :: pad) := by simp
      have hskip := skipName_spec pre name (tail' ++ NUL :: pad) s
        (pre ++ (name ++ s :: (tail' ++ NUL :: pad))).length hname' (Or.inr hs) (by simp; omega)
      have hrec := ih (pre ++ name ++ [s]) tail' (mk st (pre ++ name)).2 (log ++ [pre ++ name])
        (fun c h => hc c (by
          simp only [List.mem_append, List.mem_singleton, List.mem_cons] at h ⊢
          tauto))
        (by simp at hf; omega)
      have hbuf2 : pre ++ name ++ [s] ++ tail' ++ NUL :: pad =
          (pre ++ name) ++ s :: (tail' ++ NUL :: pad) := by simp
      have hlen2 : (pre ++ name ++ [s]).length = (pre ++ name).length + 1 := by
        simp only [List.length_append, List.length_singleton]
      rw [hbuf2, hlen2] at hrec
      have hpf := prefixesFrom_append pre name (s :: tail') hname
      rw [hbuf, makeDirLoop, hskip, Option.some_bind, hpf, prefixesFrom, if_pos hs,
        attemptAll_cons mk _ _ (prefixesFrom_ne_nil _ _)]
      simp only [hbuf', hlen, getD_append_length, set_append_length,
        cstr_append_NUL _ _ hpn, sep_ne_NUL hs, if_false, hrec]
      split_ifs <;> rfl


theorem toInt16_small (n : Nat) (h : (n : Int) < 2 ^ 15) : toInt16 n = n := by
  unfold toInt16
  have h0 : (0 : Int) ≤ n := Int.ofNat_nonneg n
  rw [Int.emod_eq_of_lt (by omega) (by omega)]
  ring

theorem strcpy_fresh (P : List Char) (hP : IsCStr P) :
    strcpy (List.replicate (P.length + 1) NUL) P = some (P ++ [NUL]) := by
  simp [strcpy, cstr_of_isCStr P hP]

/-- The buffer `current_dir` after lines 42-45: the stripped path, its
terminator, and one more terminator when a `/` was stripped. -/
theorem stripped_buffer (P : List Char) (hne : P ≠ []) :
    (if (P ++ [NUL]).getD (P.length - 1) NUL = '/' then
        (P ++ [NUL]).set (P.length - 1) NUL else P ++ [NUL]) =
      stripSlash P ++ NUL :: (if P.getLast? = some '/' then [NUL] else []) := by
  rcases List.eq_nil_or_concat P with h | ⟨P', c, h⟩
  · exact absurd h hne
  · rw [List.concat_eq_append] at h
    subst h
    have hl : (P' ++ [c]).length - 1 = P'.length := by simp
    have hb : P' ++ [c] ++ [NUL] = P' ++ c :: [NUL] := by simp
    rw [hl, hb, getD_append_length, set_append_length]
    by_cases hc : c = '/'
    · simp [stripSlash, hc]
    · have : ¬ ((P' ++ [c]).getLast? = some '/') := by simp [hc]
      simp [stripSlash, hc, this]

theorem isCStr_stripSlash (P : List Char) (hP : IsCStr P) : IsCStr (stripSlash P) := by
  intro c hc
  unfold stripSlash at hc
  split_ifs at hc
  · exact hP c (List.mem_of_mem_dropLast hc)
  · exact hP c hc

/-- What `mz_make_dir` does on a non-empty path shorter than 2^15 bytes, when
the allocation succeeds: one attempt on the path without its trailing `/`;
if that fails, the candidates of the incremental walk in order, up to the
first failure. -/
theorem mz_make_dir_eq {σ : Type} (mk : σ → List Char → Int × σ) (P : List Char) (st : σ)
    (hP : IsCStr P) (hne : P ≠ []) (hlen : (P.length : Int) < 2 ^ 15) :
    mz_make_dir mk true P st = some (
      if (mk st (stripSlash P)).1 ≠ MZ_OK then
        attemptAll mk (dirPrefixes (stripSlash P)) (mk st (stripSlash P)).2 [stripSlash P]
      else { status := (mk st (stripSlash P)).1, state := (mk st (stripSlash P)).2,
             attempts := [stripSlash P] }) := by
  have hpos : 0 < P.length := List.length_pos.2 hne
  have h16 : toInt16 P.length = P.length := toInt16_small _ hlen
  have hnot : ¬ ((P.length : Int) ≤ 0) := by omega
  have hsize : ((P.length : Int) + 1).toNat = P.length + 1 := by omega
  have hidx : ((P.length : Int) - 1).toNat = P.length - 1 := by omega
  have hQ : IsCStr (stripSlash P) := isCStr_stripSlash P hP
  obtain ⟨pad, hpad, hpadnil⟩ : ∃ pad,
      (if (P ++ [NUL]).getD (P.length - 1) NUL = '/' then
        (P ++ [NUL]).set (P.length - 1) NUL else P ++ [NUL]) = stripSlash P ++ NUL :: pad ∧
      (stripSlash P = [] → pad = [NUL]) := by
    refine ⟨_, stripped_buffer P hne, fun hq => ?_⟩
    have hlast : P.getLast? = some '/' := by
      by_contra h
      simp only [stripSlash, if_neg h] at hq
      exact hne hq
    rw [if_pos hlast]
  unfold mz_make_dir
  simp only []
  rw [cstr_of_isCStr P hP, h16, if_neg hnot, if_neg (by simp), hsize, strcpy_fresh P hP,
    Option.some_bind]
  simp only [hidx, hpad, cstr_append_NUL _ _ hQ]
  by_cases hfail : (mk st (stripSlash P)).1 ≠ MZ_OK
  · -- the incremental walk
    rw [if_pos hfail, if_pos hfail]
    cases hq : stripSlash P with
    | nil =>
      -- the path is `/`: the buffer holds two terminators
      rw [hpadnil hq]
      simp [makeDirLoop, skipName, dirPrefixes, prefixesFrom, attemptAll, cstr]
    | cons c Q' =>
      have hc : IsCStr ([c] ++ Q') := by rw [List.singleton_append, ← hq]; exact hQ
      have := makeDirLoop_eq mk ((c :: Q' ++ NUL :: pad).length + 1)
        [c] Q' pad (mk st (c :: Q')).2 [c :: Q'] hc (by simp; omega)
      simp only [List.singleton_append, List.length_singleton] at this
      rw [this]
      simp [dirPrefixes]
  · rw [if_neg hfail, if_neg hfail]


/-- The attempts made by `attemptAll` are an initial part of the candidates,
added to those made before; when it returns `MZ_OK`, every candidate was
attempted. -/
theorem attemptAll_attempts {σ : Type} (mk : σ → List Char → Int × σ) (L : List (List Char))
    (st : σ) (log : List (List Char)) :
    ∃ k, k ≤ L.length ∧ (L ≠ [] → 1 ≤ k) ∧
      (attemptAll mk L st log).attempts = log ++ L.take k ∧
      ((attemptAll mk L st log).status = MZ_OK → k = L.length) := by
  induction L generalizing st log with
  | nil => exact ⟨0, le_refl _, fun h => absurd rfl h, by simp [attemptAll], fun _ => rfl⟩
  | cons d ds ih =>
    by_cases hds : ds = []
    · subst hds
      exact ⟨1, le_refl _, fun _ => le_refl _, by simp [attemptAll], fun _ => rfl⟩
    · rw [attemptAll_cons mk d ds hds]
      by_cases hfail : (mk st d).1 ≠ MZ_OK
      · rw [if_pos hfail]
        exact ⟨1, by simp, fun _ => le_refl _, by simp, fun h => absurd h hfail⟩
      · rw [if_neg hfail]
        obtain ⟨k, hk, _, hatt, hok⟩ := ih (mk st d).2 (log ++ [d])
        refine ⟨k + 1, by simp; omega, fun _ => by omega, ?_, fun h => ?_⟩
        · rw [hatt]; simp
        · rw [hok h]; simp

theorem prefixesFrom_getLast (pre rest : List Char) :
    (prefixesFrom pre rest).getLast? = some (pre ++ rest) := by
  induction rest generalizing pre with
  | nil => simp [prefixesFrom]
  | cons c cs ih =>
    unfold prefixesFrom
    split_ifs
    · rw [List.getLast?_cons, ih]; simp
    · rw [ih]; simp

theorem dirPrefixes_getLast (q : List Char) : (dirPrefixes q).getLast? = some q := by
  rw [dirPrefixes, prefixesFrom_getLast, List.take_append_drop]


theorem dropWhile_append_stop {α : Type} (p : α → Bool) (l r : List α) (a : α)
    (hl : ∀ x ∈ l, p x = true) (ha : p a = false) :
    (l ++ a :: r).dropWhile p = a :: r := by
  induction l with
  | nil => simp [List.dropWhile, ha]
  | cons x xs ih =>
    have hx : p x = true := hl x (by simp)
    simp only [List.cons_append, List.dropWhile_cons, hx, if_true]
    exact ih (fun y hy => hl y (List.mem_cons_of_mem _ hy))

theorem dropWhile_all {α : Type} (p : α → Bool) (l : List α) (hl : ∀ x ∈ l, p x = true) :
    l.dropWhile p = [] := by
  induction l with
  | nil => rfl
  | cons x xs ih =>
    have hx : p x = true := hl x (by simp)
    simp only [List.dropWhile_cons, hx, if_true]
    exact ih (fun y hy => hl y (List.mem_cons_of_mem _ hy))

theorem parentOf_top (name : List Char) (h : ∀ c ∈ name, ¬ isSep c) : parentOf name = none := by
  unfold parentOf
  rw [dropWhile_all]
  intro x hx
  simpa using h x (List.mem_reverse.1 hx)

theorem parentOf_child (pre name : List Char) (s : Char) (hs : isSep s)
    (h : ∀ c ∈ name, ¬ isSep c) : parentOf (pre ++ s :: name) = some pre := by
  unfold parentOf
  have hrev : (pre ++ s :: name).reverse = name.reverse ++ s :: pre.reverse := by simp
  rw [hrev, dropWhile_append_stop _ _ _ _ (fun x hx => by simpa using h x (List.mem_reverse.1 hx))
    (by simp only [Bool.not_eq_false', decide_eq_true_eq]; exact hs)]
  simp

/-- The candidates of the walk form a chain of parents. -/
theorem parentChain_prefixesFrom (rest pre : List Char) (par : Option (List Char))
    (hpar : ∀ name, (∀ c ∈ name, ¬ isSep c) → parentOf (pre ++ name) = par) :
    ParentChain par (prefixesFrom pre rest) := by
  induction rest generalizing pre par with
  | nil =>
    have := hpar [] (by simp)
    simp only [List.append_nil] at this
    exact ⟨this, trivial⟩
  | cons c cs ih =>
    unfold prefixesFrom
    split_ifs with hc
    · have := hpar [] (by simp)
      simp only [List.append_nil] at this
      refine ⟨this, ih (pre ++ [c]) (some pre) (fun name hname => ?_)⟩
      rw [List.append_assoc, List.singleton_append]
      exact parentOf_child pre name c hc hname
    · refine ih (pre ++ [c]) par (fun name hname => ?_)
      rw [List.append_assoc, List.singleton_append]
      refine hpar (c :: name) (fun d hd => ?_)
      rcases List.mem_cons.1 hd with h | h
      · rw [h]; exact hc
      · exact hname d h

theorem parentChain_dirPrefixes (q : List Char) (hfirst : ∀ c, q.head? = some c → ¬ isSep c) :
    ParentChain none (dirPrefixes q) := by
  cases q with
  | nil => exact ⟨parentOf_top [] (by simp), trivial⟩
  | cons c cs =>
    have hc : ¬ isSep c := hfirst c rfl
    refine parentChain_prefixesFrom cs [c] none (fun name hname => ?_)
    refine parentOf_top _ (fun d hd => ?_)
    rcases List.mem_cons.1 hd with h | h
    · rw [h]; exact hc
    · exact hname d h

/-- In a parent-closed set that holds the parent of the last member of a
chain, the members before the last are present. -/
theorem parentChain_members (fs : List (List Char)) (hfs : ParentClosed fs)
    (L1 : List (List Char)) (q : List Char) (par : Option (List Char))
    (hch : ParentChain par (L1 ++ [q])) (hq : ∀ p, parentOf q = some p → p ∈ fs) :
    ∀ d ∈ L1, d ∈ fs := by
  induction L1 generalizing par with
  | nil => intro d hd; simp at hd
  | cons x xs ih =>
    have hrec := ih (some x) hch.2
    have hx : x ∈ fs := by
      cases xs with
      | nil => exact hq x hch.2.1
      | cons y ys => exact hfs y (hrec y (by simp)) x hch.2.1
    intro d hd
    rcases List.mem_cons.1 hd with h | h
    · rw [h]; exact hx
    · exact hrec d h

theorem fsMakeDir_top (fs : List (List Char)) (d : List Char) (hp : parentOf d = none) :
    fsMakeDir fs d = (MZ_OK, if d ∈ fs then fs else d :: fs) := by
  simp only [fsMakeDir, hp]

theorem fsMakeDir_child (fs : List (List Char)) (d p : List Char) (hp : parentOf d = some p) :
    fsMakeDir fs d =
      if p ∈ fs then (MZ_OK, if d ∈ fs then fs else d :: fs) else (MZ_INTERNAL_ERROR, fs) := by
  simp only [fsMakeDir, hp]

theorem fsMakeDir_ok_iff (fs : List (List Char)) (d : List Char) :
    (fsMakeDir fs d).1 = MZ_OK ↔ ∀ p, parentOf d = some p → p ∈ fs := by
  cases hp : parentOf d with
  | none => simp [fsMakeDir_top fs d hp]
  | some p =>
    rw [fsMakeDir_child fs d p hp]
    by_cases hm : p ∈ fs
    · simp [hm]
    · rw [if_neg hm]
      constructor
      · intro h; exact absurd (show MZ_INTERNAL_ERROR = MZ_OK from h) (by decide)
      · intro h; exact absurd (h p rfl) hm

theorem mem_insert_dir (fs : List (List Char)) (d x : List Char) :
    x ∈ (if d ∈ fs then fs else d :: fs) ↔ x ∈ fs ∨ x = d := by
  split_ifs with hd
  · constructor
    · exact Or.inl
    · rintro (h1 | h1)
      · exact h1
      · rw [h1]; exact hd
  · simp [or_comm]

theorem fsMakeDir_state_ok (fs : List (List Char)) (d : List Char)
    (h : (fsMakeDir fs d).1 = MZ_OK) : ∀ x, x ∈ (fsMakeDir fs d).2 ↔ x ∈ fs ∨ x = d := by
  intro x
  cases hp : parentOf d with
  | none =>
    rw [fsMakeDir_top fs d hp]
    exact mem_insert_dir fs d x
  | some p =>
    rw [fsMakeDir_child fs d p hp] at h ⊢
    by_cases hm : p ∈ fs
    · rw [if_pos hm]
      exact mem_insert_dir fs d x
    · rw [if_neg hm] at h
      exact absurd (show MZ_INTERNAL_ERROR = MZ_OK from h) (by decide)

theorem fsMakeDir_state_fail (fs : List (List Char)) (d : List Char)
    (h : (fsMakeDir fs d).1 ≠ MZ_OK) : (fsMakeDir fs d).2 = fs := by
  cases hp : parentOf d with
  | none =>
    rw [fsMakeDir_top fs d hp] at h
    exact absurd rfl h
  | some p =>
    rw [fsMakeDir_child fs d p hp] at h ⊢
    by_cases hm : p ∈ fs
    · rw [if_pos hm] at h
      exact absurd rfl h
    · rw [if_neg hm]

/-- Along a chain whose first parent exists (or is none), the modelled
Directory Creator succeeds at every step and adds exactly the chain. -/
theorem attemptAll_fs (L : List (List Char)) (par : Option (List Char)) (fs : List (List Char))
    (log : List (List Char)) (hch : ParentChain par L) (hpar : ∀ p, par = some p → p ∈ fs) :
    (attemptAll fsMakeDir L fs log).status = MZ_OK ∧
    ∀ d, d ∈ (attemptAll fsMakeDir L fs log).state ↔ d ∈ fs ∨ d ∈ L := by
  induction L generalizing par fs log with
  | nil => simp [attemptAll]
  | cons x xs ih =>
    have hok : (fsMakeDir fs x).1 = MZ_OK :=
      (fsMakeDir_ok_iff fs x).2 (fun p hp => hpar p (hch.1.symm.trans hp))
    have hmem := fsMakeDir_state_ok fs x hok
    by_cases hxs : xs = []
    · subst hxs
      simp only [attemptAll, List.mem_singleton]
      exact ⟨hok, hmem⟩
    · rw [attemptAll_cons fsMakeDir x xs hxs, if_neg (by simpa using hok)]
      obtain ⟨h1, h2⟩ := ih (some x) (fsMakeDir fs x).2 (log ++ [x]) hch.2
        (fun p hp => (hmem p).2 (Or.inr (Option.some.inj hp).symm))
      refine ⟨h1, fun d => ?_⟩
      rw [h2 d, hmem d, List.mem_cons]
      tauto

/-- With the modelled Directory Creator, on a path shorter than 2^15 bytes made
of non-empty segments joined by single separators and a parent-closed set of
directories, `mz_make_dir` returns `MZ_OK` and leaves the initial set plus
exactly the prefixes of the path. -/
theorem mz_make_dir_creates_hierarchy (q : List Char) (fs : List (List Char)) (hq : SegPath q)
    (hlen : (q.length : Int) < 2 ^ 15) (hfs : ParentClosed fs) :
    ∃ r, mz_make_dir fsMakeDir true q fs = some r ∧ r.status = MZ_OK ∧
      ∀ d, d ∈ r.state ↔ d ∈ fs ∨ d ∈ dirPrefixes q := by
  have hstrip : stripSlash q = q := by
    unfold stripSlash
    rw [if_neg]
    intro h
    exact hq.last '/' h (Or.inr rfl)
  have hchain : ParentChain none (dirPrefixes q) := parentChain_dirPrefixes q hq.first
  refine ⟨_, mz_make_dir_eq fsMakeDir q fs hq.cstr hq.nonempty hlen, ?_⟩
  rw [hstrip]
  by_cases hfail : (fsMakeDir fs q).1 ≠ MZ_OK
  · -- the single attempt fails: nothing is changed, the walk creates every level
    rw [if_pos hfail, fsMakeDir_state_fail fs q hfail]
    exact attemptAll_fs (dirPrefixes q) none fs [q] hchain (fun p hp => by cases hp)
  · -- the single attempt succeeds: the levels above were present already
    rw [if_neg hfail]
    have hok : (fsMakeDir fs q).1 = MZ_OK := by simpa using hfail
    obtain ⟨L1, hL⟩ : ∃ L1, dirPrefixes q = L1 ++ [q] :=
      ⟨(dirPrefixes q).dropLast,
        (List.dropLast_append_getLast? q (by rw [dirPrefixes_getLast]; simp)).symm⟩
    have hbefore : ∀ d ∈ L1, d ∈ fs :=
      parentChain_members fs hfs L1 q none (hL ▸ hchain) ((fsMakeDir_ok_iff fs q).1 hok)
    refine ⟨hok, fun d => ?_⟩
    rw [fsMakeDir_state_ok fs q hok d, hL, List.mem_append, List.mem_singleton]
    constructor
    · rintro (h | h)
      · exact Or.inl h
      · exact Or.inr (Or.inr h)
    · rintro (h | h | h)
      · exact Or.inl h
      · exact Or.inl (hbefore d h)
      · exact Or.inr h


/-- The first attempt of `mz_make_dir`, on a non-empty path shorter than 2^15
bytes, is on the path without its trailing `/`. -/
theorem mz_make_dir_first_attempt {σ : Type} (mk : σ → List Char → Int × σ) (P : List Char)
    (st : σ) (hP : IsCStr P) (hne : P ≠ []) (hlen : (P.length : Int) < 2 ^ 15) :
    (mz_make_dir mk true P st).map (fun r => r.attempts.head?) =
      some (some (stripSlash P)) := by
  rw [mz_make_dir_eq mk P st hP hne hlen, Option.map_some']
  split_ifs with hfail
  · obtain ⟨k, _, _, hatt, _⟩ := attemptAll_attempts mk (dirPrefixes (stripSlash P))
      (mk st (stripSlash P)).2 [stripSlash P]
    simp only [hatt, List.singleton_append, List.head?_cons]
  · rfl

/-- When `mz_make_dir` returns `MZ_OK` on a non-empty path shorter than 2^15
bytes, its last attempt was on the full string, the path without its trailing
`/`. -/
theorem mz_make_dir_ok_last {σ : Type} (mk : σ → List Char → Int × σ) (P : List Char)
    (st : σ) (hP : IsCStr P) (hne : P ≠ []) (hlen : (P.length : Int) < 2 ^ 15)
    (r : MakeDirResult σ) (hr : mz_make_dir mk true P st = some r) (hok : r.status = MZ_OK) :
    r.attempts.getLast? = some (stripSlash P) := by
  rw [mz_make_dir_eq mk P st hP hne hlen] at hr
  have hr' := Option.some.inj hr
  subst hr'
  split_ifs at hok ⊢ with hfail
  · obtain ⟨k, _, _, hatt, hall⟩ := attemptAll_attempts mk (dirPrefixes (stripSlash P))
      (mk st (stripSlash P)).2 [stripSlash P]
    rw [hatt, hall hok, List.take_length, List.getLast?_append, dirPrefixes_getLast]
    rfl
  · rfl

theorem noDupSep_replicate (n : Nat) (c : Char) (hc : ¬ isSep c) :
    NoDupSep (List.replicate n c) := by
  induction n with
  | zero => exact trivial
  | succ k ih =>
    cases k with
    | zero => exact trivial
    | succ m => exact ⟨fun h => hc h.1, ih⟩

theorem segPath_replicate (n : Nat) (c : Char) (hn : 0 < n) (hc : c ≠ NUL) (hs : ¬ isSep c) :
    SegPath (List.replicate n c) where
  cstr := isCStr_replicate n c hc
  nonempty := by
    intro h
    have := congrArg List.length h
    simp at this
    omega
  first := by
    intro d hd
    have := List.mem_of_mem_head? hd
    rw [(List.mem_replicate.1 this).2]
    exact hs
  last := by
    intro d hd
    have := List.mem_of_getLast?_eq_some hd
    rw [(List.mem_replicate.1 this).2]
    exact hs
  nodup := noDupSep_replicate n c hs

theorem toInt16_replicate_cstr (n : Nat) (c : Char) (hc : c ≠ NUL) :
    toInt16 (cstr (List.replicate n c)).length = toInt16 n := by
  rw [cstr_of_isCStr _ (isCStr_replicate n c hc), List.length_replicate]

/-- C12 (code defect).  With the Directory Creator modelled on a set of
directories, the path of 32768 letters `a` (one non-empty segment) and the
empty, parent-closed, initial set: `mz_make_dir` returns `MZ_OK` without any
attempt and the set stays empty, although the path is one of its own prefixes
to create.  The length wraps to -32768 in the `int16_t` of line 34. -/
theorem mz_make_dir_long_path_not_created :
    SegPath (List.replicate 32768 'a') ∧ ParentClosed [] ∧
    List.replicate 32768 'a' ∈ dirPrefixes (List.replicate 32768 'a') ∧
    mz_make_dir fsMakeDir true (List.replicate 32768 'a') [] =
      some { status := MZ_OK, state := [], attempts := [] } := by
  refine ⟨segPath_replicate _ _ (by decide) (by decide) (by decide), ?_, ?_, ?_⟩
  · intro d hd; simp at hd
  · exact List.mem_of_getLast?_eq_some (dirPrefixes_getLast _)
  · exact mz_make_dir_wrapped fsMakeDir true _ []
      (by rw [toInt16_replicate_cstr _ _ (by decide)]; decide)

/-- C14 (code defect).  On the non-empty path of 65536 letters `a`, whatever
the Directory Creator does, `mz_make_dir` returns `MZ_OK` with no attempt made:
not after a successful attempt on the full string.  The length wraps to 0 in
the `int16_t` of line 34. -/
theorem mz_make_dir_ok_without_attempt {σ : Type} (mz_os_make_dir : σ → List Char → Int × σ)
    (st : σ) :
    List.replicate 65536 'a' ≠ [] ∧
    (mz_make_dir mz_os_make_dir true (List.replicate 65536 'a') st).map
      (fun r => (r.status, r.attempts)) = some (MZ_OK, []) := by
  refine ⟨(segPath_replicate _ _ (by decide) (by decide) (by decide)).nonempty, ?_⟩
  rw [mz_make_dir_wrapped mz_os_make_dir true _ st
    (by rw [toInt16_replicate_cstr _ _ (by decide)]; decide)]
  rfl

/-- C15 (code defect).  On the path `a\` (length 2, ending in the separator
`\`) the first directory-creation attempt is on `a\` itself, not on `a`:
line 44 strips a trailing `/` only.  On `a/` the first attempt is on `a`. -/
theorem mz_make_dir_backslash_not_stripped {σ : Type}
    (mz_os_make_dir : σ → List Char → Int × σ) (st : σ) :
    isSep '\\' ∧
    (mz_make_dir mz_os_make_dir true ['a', '\\'] st).map (fun r => r.attempts.head?) =
      some (some ['a', '\\']) ∧
    (mz_make_dir mz_os_make_dir true ['a', '/'] st).map (fun r => r.attempts.head?) =
      some (some ['a']) :=
  ⟨by decide,
    mz_make_dir_first_attempt mz_os_make_dir ['a', '\\'] st (by decide) (by decide) (by decide),
    mz_make_dir_first_attempt mz_os_make_dir ['a', '/'] st (by decide) (by decide) (by decide)⟩

/-- C20 (code defect).  On the non-empty path of 32768 letters `a`, whatever
the Directory Creator does and whether or not memory is available,
`mz_make_dir` returns 0, which is `MZ_OK`, without invoking the Directory
Creator: `(int16_t)strlen(path)` is -32768, and line 35 takes the path for
empty. -/
theorem mz_make_dir_long_path_taken_for_empty {σ : Type}
    (mz_os_make_dir : σ → List Char → Int × σ) (alloc : Bool) (st : σ) :
    List.replicate 32768 'a' ≠ [] ∧
    toInt16 (cstr (List.replicate 32768 'a')).length = -32768 ∧
    mz_make_dir mz_os_make_dir alloc (List.replicate 32768 'a') st =
      some { status := MZ_OK, state := st, attempts := [] } := by
  have h : toInt16 (cstr (List.replicate 32768 'a')).length = -32768 := by
    rw [toInt16_replicate_cstr _ _ (by decide)]; decide
  exact ⟨(segPath_replicate _ _ (by decide) (by decide) (by decide)).nonempty, h,
    mz_make_dir_wrapped mz_os_make_dir alloc _ st (by rw [h]; decide)⟩

/-! ## `mz_get_file_crc` -/

theorem scriptOps_read_cons (init : Nat) (update : Nat → List Nat → Nat) (o : Int) (n : Int)
    (data : List Nat) (rest : List (Int × List Nat)) (v k : Nat) :
    (scriptOps init update).mz_stream_crc32_read
        { open_status := o, script := (n, data) :: rest, value := v, reads := k } =
      (n, { open_status := o, script := rest, value := if n > 0 then update v data else v,
            reads := k + 1 }) := rfl

theorem crcReadLoop_script (init : Nat) (update : Nat → List Nat → Nat)
    (pos : List (Int × List Nat)) (n : Int) (data : List Nat) (rest : List (Int × List Nat))
    (hpos : ∀ x ∈ pos, 0 < x.1) (hn : n ≤ 0) (fuel : Nat) (hf : pos.length < fuel)
    (o : Int) (v k : Nat) :
    crcReadLoop (scriptOps init update) fuel MZ_OK
        { open_status := o, script := pos ++ (n, data) :: rest, value := v, reads := k } =
      some (if n = 0 then MZ_OK else n,
        { open_status := o, script := rest, value := (pos.map Prod.snd).foldl update v,
          reads := k + pos.length + 1 }) := by
  induction pos generalizing fuel v k with
  | nil =>
    obtain ⟨f, rfl⟩ : ∃ f, fuel = f + 1 := ⟨fuel - 1, by simp at hf; omega⟩
    have h1 : ¬ (n > 0) := by omega
    rw [List.nil_append, crcReadLoop, scriptOps_read_cons]
    rcases lt_or_eq_of_le hn with h | h
    · have h2 : n ≠ 0 := by omega
      simp [h, h1, h2]
    · subst h
      simp
  | cons x xs ih =>
    obtain ⟨f, rfl⟩ : ∃ f, fuel = f + 1 := ⟨fuel - 1, by simp at hf; omega⟩
    obtain ⟨x1, x2⟩ := x
    have hx : 0 < x1 := hpos (x1, x2) (by simp)
    have hx' : ¬ (x1 < 0) := by omega
    have := ih (fun y hy => hpos y (List.mem_cons_of_mem _ hy)) f (by simpa using hf)
      (update v x2) (k + 1)
    rw [List.cons_append, crcReadLoop, scriptOps_read_cons]
    simp only [hx', if_false, gt_iff_lt, hx, and_self, if_true, this, List.map_cons,
      List.foldl_cons, List.length_cons]
    congr 3
    omega

/-- C13.  With the byte stream an open status and a sequence of read results:
when open fails, `mz_get_file_crc` returns the open status without any read;
otherwise it reads up to the first result that is not positive and returns
`MZ_OK` if that is zero and the value itself if it is negative.  In both cases
`*result_crc` is the transform's value folded over the chunks read before
stopping. -/
theorem mz_get_file_crc_spec (init : Nat) (update : Nat → List Nat → Nat) (s : ScriptState)
    (fuel : Nat) :
    (s.open_status ≠ MZ_OK →
      mz_get_file_crc (scriptOps init update) fuel s =
        some (s.open_status, init, { s with value := init })) ∧
    (s.open_status = MZ_OK → ∀ pos n data rest, s.script = pos ++ (n, data) :: rest →
      (∀ x ∈ pos, 0 < x.1) → n ≤ 0 → pos.length < fuel →
      mz_get_file_crc (scriptOps init update) fuel s =
        some (if n = 0 then MZ_OK else n, (pos.map Prod.snd).foldl update init,
          { open_status := s.open_status, script := rest,
            value := (pos.map Prod.snd).foldl update init,
            reads := s.reads + pos.length + 1 })) := by
  constructor
  · intro h
    simp [mz_get_file_crc, scriptOps, h]
  · intro h pos n data rest hs hpos hn hf
    have hloop := crcReadLoop_script init update pos n data rest hpos hn fuel hf s.open_status
      init s.reads
    obtain ⟨o, sc, v, k⟩ := s
    simp only at h hs
    subst hs
    simp only [mz_get_file_crc, scriptOps, h, if_true] at hloop ⊢
    rw [hloop]
    simp

/-- Witness for `mz_get_file_crc_spec`: two chunks and the end of the data; two
chunks and an error; a failed open. -/
theorem mz_get_file_crc_spec_witness :
    mz_get_file_crc (scriptOps 7 (fun v d => v + d.sum)) 3
        { open_status := MZ_OK, script := [(2, [1, 2]), (1, [5])] ++ (0, []) :: [(3, [1, 1, 1])],
          value := 99, reads := 0 } =
      some (MZ_OK, 15, { open_status := MZ_OK, script := [(3, [1, 1, 1])], value := 15,
                         reads := 3 }) ∧
    mz_get_file_crc (scriptOps 7 (fun v d => v + d.sum)) 3
        { open_status := MZ_OK, script := [(2, [1, 2])] ++ (-5, []) :: [(3, [1, 1, 1])],
          value := 99, reads := 0 } =
      some (-5, 10, { open_status := MZ_OK, script := [(3, [1, 1, 1])], value := 10,
                      reads := 2 }) ∧
    mz_get_file_crc (scriptOps 7 (fun v d => v + d.sum)) 3
        { open_status := -9, script := [(2, [1, 2])], value := 99, reads := 0 } =
      some (-9, 7, { open_status := -9, script := [(2, [1, 2])], value := 7, reads := 0 }) :=
  ⟨by
      have h := (mz_get_file_crc_spec 7 (fun v d => v + d.sum)
        { open_status := MZ_OK, script := [(2, [1, 2]), (1, [5])] ++ (0, []) :: [(3, [1, 1, 1])],
          value := 99, reads := 0 } 3).2 rfl [(2, [1, 2]), (1, [5])] 0 []
        [(3, [1, 1, 1])] rfl (by decide) (by decide) (by decide)
      simpa using h,
    by
      have h := (mz_get_file_crc_spec 7 (fun v d => v + d.sum)
        { open_status := MZ_OK, script := [(2, [1, 2])] ++ (-5, []) :: [(3, [1, 1, 1])],
          value := 99, reads := 0 } 3).2 rfl [(2, [1, 2])] (-5) []
        [(3, [1, 1, 1])] rfl (by decide) (by decide) (by decide)
      simpa using h,
    (mz_get_file_crc_spec 7 (fun v d => v + d.sum) _ 3).1 (by decide)⟩


end Minizip
